import Mathlib

/-!
# Verification of the TestingActions workflow engine against its specification

This file gives a shallow embedding, in Lean 4, of the parts of the
TestingActions Rust code base that the frozen claims C1..C10 are about, and
settles each claim against that embedding.

Conventions used throughout:

* Rust `HashMap<String, V>` values are embedded as association lists
  `List (String × V)`; insertion is modelled by consing (the most recent
  binding shadows older ones under `List.lookup`), which matches the
  observable lookup behaviour of `HashMap::insert` as long as results are
  read through `List.lookup`.
* Rust `Result<T, E>` becomes `Except E T`, `Option<T>` becomes `Option T`.
* `chrono::DateTime<Utc>` instants are embedded as rational numbers of
  milliseconds since the Unix epoch; `std::time::Duration` values as
  non-negative rationals of milliseconds.
* Error payloads that the source builds with `format!` are embedded
  structurally (the constructor carries the data that the source would
  interpolate into the message), since the exact message text is irrelevant
  to every claim.
* Effectful operations (bridge dispatch, process I/O) are abstracted as
  oracle parameters; everything that is pure in the source is embedded
  directly.
-/

deriving instance DecidableEq for Except

namespace TA

/-! ## Execution context (src/src/workflow/context.rs)

`ExecutionContext` holds env, secrets, step outputs, job outputs, the
current job/step and the run id. -/

structure ExecutionContext where
  env : List (String × String)
  secrets : List (String × String)
  steps : List (String × List (String × String))
  jobs : List (String × List (String × String))
  current_job : Option String
  current_step : Option String
  run_id : String
  deriving Repr, DecidableEq

namespace ExecutionContext

/-- `ExecutionContext::get_output` (context.rs:51). -/
def get_output (ctx : ExecutionContext) (step_id key : String) : Option String :=
  (ctx.steps.lookup step_id).bind (fun outs => outs.lookup key)

/-- `ExecutionContext::set_output` (context.rs:43): insert into the nested map
for `step_id`, creating it when absent. -/
def set_output (ctx : ExecutionContext) (step_id key value : String) : ExecutionContext :=
  let outs := (ctx.steps.lookup step_id).getD []
  { ctx with steps := (step_id, (key, value) :: outs) :: ctx.steps }

end ExecutionContext

/-! ## Expression evaluation (src/src/workflow/expressions.rs) -/

/-- Helper for `splitChar`: accumulate the current field (reversed). -/
def splitCharAux (sep : Char) : List Char → List Char → List (List Char)
  | [], acc => [acc.reverse]
  | c :: cs, acc =>
    if c = sep then acc.reverse :: splitCharAux sep cs []
    else splitCharAux sep cs (c :: acc)

/-- Embedding of Rust `str::split(sep: char)` collected into a `Vec`:
splitting on every occurrence of `sep`, keeping empty fields (so the result
is never the empty list).  Agrees with Rust on every input. -/
def splitChar (sep : Char) (s : String) : List String :=
  (splitCharAux sep s.toList []).map (fun l => String.mk l)

/-- `ExpressionError` (expressions.rs:20).  Constructor payloads carry the
data the source interpolates into the error message. -/
inductive ExpressionError where
  | UnknownVariable (which : String)
  | InvalidSyntax (expr : String)
  | MissingContext (what : String)
  deriving Repr, DecidableEq

/-- `evaluate_single` (expressions.rs:48): evaluate one dot-qualified
expression (without the wrapper braces).  `expr.split('.')` is embedded as
`splitChar '.'`, which agrees with Rust `split('.')` on every input. -/
def evaluate_single (expr : String) (ctx : ExecutionContext) :
    Except ExpressionError String :=
  let parts := splitChar '.' expr
  match parts with
  | [] => .error (.InvalidSyntax expr)
  | p0 :: rest =>
    match p0 with
    | "env" =>
      match rest with
      | [name] =>
        match ctx.env.lookup name with
        | some v => .ok v
        | none => .error (.UnknownVariable ("env." ++ name))
      | _ => .error (.InvalidSyntax expr)
    | "secrets" =>
      match rest with
      | [name] =>
        match ctx.secrets.lookup name with
        | some v => .ok v
        | none => .error (.UnknownVariable ("secrets." ++ name))
      | _ => .error (.InvalidSyntax expr)
    | "steps" =>
      match rest with
      | [sid, mid, oname] =>
        if mid = "outputs" then
          match ctx.get_output sid oname with
          | some v => .ok v
          | none => .error (.UnknownVariable ("steps." ++ sid ++ ".outputs." ++ oname))
        else .error (.InvalidSyntax expr)
      | _ => .error (.InvalidSyntax expr)
    | "jobs" =>
      match rest with
      | [jname, mid, oname] =>
        if mid = "outputs" then
          match (ctx.jobs.lookup jname).bind (fun outs => outs.lookup oname) with
          | some v => .ok v
          | none => .error (.UnknownVariable ("jobs." ++ jname ++ ".outputs." ++ oname))
        else .error (.InvalidSyntax expr)
      | _ => .error (.InvalidSyntax expr)
    | "github" =>
      match rest with
      | "run_id" :: _ => .ok ctx.run_id
      | "job" :: _ =>
        match ctx.current_job with
        | some j => .ok j
        | none => .error (.MissingContext "current job")
      | _ => .error (.UnknownVariable expr)
    | _ => .error (.UnknownVariable expr)

/-- A concrete context used by counterexamples. -/
def ctxEx : ExecutionContext :=
  { env := [], secrets := [], steps := [], jobs := []
    current_job := some "build", current_step := none, run_id := "run-1" }

/-- C8, counterexample.  The claim says the expression forms are `run.id` and
`run.job`; on the code both fall into the catch-all branch of
`evaluate_single` and fail with `UnknownVariable` for every context — even
one with a run id and a current job set, as here. -/
theorem C8_counterexample :
    evaluate_single "run.id" ctxEx = .error (.UnknownVariable "run.id") ∧
    evaluate_single "run.job" ctxEx = .error (.UnknownVariable "run.job") := by
  constructor <;> rfl

/-- C8, amended.  The identity expressions implemented by `evaluate_single`
(expressions.rs:115-128) are `github.run_id` and `github.job`, not `run.id`
and `run.job`.  `github.run_id` returns the context's run id for every
context (it never fails); `github.job` returns the current job name and
fails with `MissingContext` exactly when no current job is set — never with
`UnknownVariable`. -/
theorem C8_run_identity_expressions (ctx : ExecutionContext) :
    evaluate_single "github.run_id" ctx = .ok ctx.run_id ∧
    evaluate_single "github.job" ctx =
      (match ctx.current_job with
       | some j => .ok j
       | none => .error (.MissingContext "current job")) := by
  constructor
  · rfl
  · rfl

/-! ## Synthetic clock (src/src/engine/mock_clock.rs)

Instants (`chrono::DateTime<Utc>`) are embedded as rationals of milliseconds
since the Unix epoch; `std::time::Duration` values as non-negative rationals
of milliseconds.  The `Arc<RwLock<..>>` wrapper is dropped: every operation
is a pure state transformer on `ClockState`, with the ambient wall clock
(`Utc::now()`) passed explicitly as a `realNow` argument where the source
calls it. -/

/-- Reasons for `ClockError::InvalidDurationFormat`; each constructor carries
the data the source interpolates into the message. -/
inductive DurationErrReason where
  | emptyString
  | expectedNumberBeforeUnit (c : Char)
  | invalidNumber (s : String)
  | unknownUnit (c : Char)
  deriving Repr, DecidableEq

/-- `ClockError` (mock_clock.rs:216). -/
inductive ClockError where
  | CannotGoBackwards (current target : ℚ)
  | InvalidTimeFormat (s : String)
  | InvalidDurationFormat (reason : DurationErrReason)
  | InvalidTimezone (s : String)
  deriving Repr, DecidableEq

/-- `ClockState` (mock_clock.rs:42).  `timezone_offset_secs` is an `i32` in
the source; it is embedded as `Int` (no claim exercises values outside the
`i32` range, so wrap-around is not modelled). -/
structure ClockState where
  virtual_time : Option ℚ
  frozen : Bool
  timezone_offset_secs : Int
  step_duration : ℚ
  auto_advance : Bool
  deriving Repr, DecidableEq

/-- `MockClock::new` (mock_clock.rs:62): no virtual time, not frozen, UTC,
3 s step duration, auto-advance on. -/
def clockInit : ClockState :=
  { virtual_time := none, frozen := false, timezone_offset_secs := 0
    step_duration := 3000, auto_advance := true }

namespace ClockState

/-- `MockClock::now` (mock_clock.rs:75): virtual time if set, else wall
clock. -/
def now (clk : ClockState) (realNow : ℚ) : ℚ :=
  clk.virtual_time.getD realNow

/-- `MockClock::is_active` / `is_virtual` (mock_clock.rs:81,86). -/
def is_active (clk : ClockState) : Bool :=
  clk.virtual_time.isSome

/-- `MockClock::set` (mock_clock.rs:91). -/
def set (clk : ClockState) (t : ℚ) : ClockState :=
  { clk with virtual_time := some t, frozen := true }

/-- `MockClock::forward` (mock_clock.rs:98): seed from the wall clock when
virtual time is unset, then add the duration. -/
def forward (clk : ClockState) (realNow d : ℚ) : ClockState :=
  let current := clk.virtual_time.getD realNow
  { clk with virtual_time := some (current + d), frozen := true }

/-- `MockClock::forward_until` (mock_clock.rs:107): fails (leaving the state
unchanged) when the target is before the current time. -/
def forward_until (clk : ClockState) (realNow target : ℚ) :
    Except ClockError ClockState :=
  let current := clk.virtual_time.getD realNow
  if target < current then
    .error (.CannotGoBackwards current target)
  else
    .ok { clk with virtual_time := some target, frozen := true }

/-- `MockClock::reset` (mock_clock.rs:121). -/
def reset (clk : ClockState) : ClockState :=
  { clk with virtual_time := none, frozen := false }

/-- `MockClock::auto_advance_step` (mock_clock.rs:140): no-op when
auto-advance is disabled, otherwise seed from the wall clock if unset and add
the step duration. -/
def auto_advance_step (clk : ClockState) (realNow : ℚ) : ClockState :=
  if !clk.auto_advance then clk
  else
    let current := (clk.virtual_time.getD realNow)
    { clk with virtual_time := some (current + clk.step_duration) }

/-- `MockClock::set_timezone` (mock_clock.rs:157): the argument is an offset
in HOURS; the stored field is seconds, hence the multiplication by 3600. -/
def set_timezone (clk : ClockState) (offset_hours : Int) : ClockState :=
  { clk with timezone_offset_secs := offset_hours * 3600 }

end ClockState

/-- `ClockSyncState` (mock_clock.rs:204).  `virtual_time_ms` is
`timestamp_millis()`, i.e. the floor of the instant in milliseconds; the
RFC 3339 rendering `virtual_time_iso` is omitted (string formatting of
dates, exercised by no claim). -/
structure ClockSyncState where
  virtual_time_ms : Option Int
  frozen : Bool
  timezone_offset_secs : Int
  deriving Repr, DecidableEq

/-- `MockClock::get_sync_state` (mock_clock.rs:128). -/
def ClockState.get_sync_state (clk : ClockState) : ClockSyncState :=
  { virtual_time_ms := clk.virtual_time.map (fun t => ⌊t⌋)
    frozen := clk.frozen
    timezone_offset_secs := clk.timezone_offset_secs }

/-! ### Timezone parsing (mock_clock.rs:330, `parse_timezone`) -/

/-- Unicode-whitespace trim (`str::trim`); restricted to the ASCII whitespace
recognised by `Char.isWhitespace`, which agrees with Rust on every claim
input. -/
def trimStr (s : String) : String :=
  String.mk (((s.toList.dropWhile Char.isWhitespace).reverse.dropWhile
    Char.isWhitespace).reverse)

/-- Rust `str::parse::<i32>`: optional sign, one or more ASCII digits, value
within the `i32` range. -/
def parse_i32 (s : String) : Option Int :=
  let core : List Char → Option Int := fun ds =>
    if ds ≠ [] ∧ ds.all Char.isDigit then
      some (Int.ofNat (ds.foldl (fun n c => n * 10 + (c.toNat - 48)) 0))
    else none
  let v : Option Int :=
    match s.toList with
    | '+' :: ds => core ds
    | '-' :: ds => (core ds).map Neg.neg
    | ds => core ds
  v.bind (fun n => if -2147483648 ≤ n ∧ n ≤ 2147483647 then some n else none)

/-- Rust `str::split_once(sep: char)`: the pieces before and after the first
occurrence of `sep`, or `none` when absent. -/
def splitOnceAux (sep : Char) : List Char → Option (List Char × List Char)
  | [] => none
  | c :: cs =>
    if c = sep then some ([], cs)
    else (splitOnceAux sep cs).map (fun p => (c :: p.1, p.2))

def splitOnce (sep : Char) (s : String) : Option (String × String) :=
  (splitOnceAux sep s.toList).map (fun p => (String.mk p.1, String.mk p.2))

/-- The fixed abbreviation table of `parse_timezone` (mock_clock.rs:360):
offset in hours for each recognised upper-cased abbreviation. -/
def tzAbbrevHours : String → Option Int
  | "EST" => some (-5) | "CST" => some (-6) | "MST" => some (-7)
  | "PST" => some (-8) | "AKST" => some (-9) | "HST" => some (-10)
  | "EDT" => some (-4) | "CDT" => some (-5) | "MDT" => some (-6)
  | "PDT" => some (-7) | "AKDT" => some (-8)
  | "GMT" => some 0 | "WET" => some 0 | "CET" => some 1 | "EET" => some 2
  | "WEST" => some 1 | "CEST" => some 2 | "EEST" => some 3
  | "IST" => some 5 | "JST" => some 9 | "KST" => some 9
  | "CST_ASIA" => some 8 | "SGT" => some 8 | "HKT" => some 8
  | "AEST" => some 10 | "ACST" => some 9 | "AWST" => some 8
  | "AEDT" => some 11 | "ACDT" => some 10
  | _ => none

/-- `parse_timezone` (mock_clock.rs:330): returns the offset in SECONDS from
UTC.  Accepts `UTC`/`Z`, signed numeric offsets (`+HH:MM` or `+HH`), and the
fixed abbreviation table. -/
def parse_timezone (s : String) : Except ClockError Int :=
  let s := trimStr s
  if (s.toList.map Char.toLower) = "utc".toList ∨ s = "Z" then
    .ok 0
  else if s.toList.head? = some '+' ∨ s.toList.head? = some '-' then
    let sign : Int := if s.toList.head? = some '-' then -1 else 1
    let rest := String.mk (s.toList.drop 1)
    match splitOnce ':' rest with
    | some (hours_str, mins_str) =>
      match parse_i32 hours_str with
      | none => .error (.InvalidTimezone s)
      | some hours =>
        match parse_i32 mins_str with
        | none => .error (.InvalidTimezone s)
        | some mins => .ok (sign * (hours * 3600 + mins * 60))
    | none =>
      match parse_i32 rest with
      | none => .error (.InvalidTimezone s)
      | some hours => .ok (sign * hours * 3600)
  else
    match tzAbbrevHours (String.mk (s.toList.map Char.toUpper)) with
    | some offset_hours => .ok (offset_hours * 3600)
    | none => .error (.InvalidTimezone s)

/-! ### The executor's `clock/timezone` action (executor.rs:1011-1021)

Both the `clock/timezone` branch and the timezone part of the `clock/set`
branch run `parse_timezone(tz)` — which yields SECONDS — and then pass that
value to `MockClock::set_timezone`, whose parameter is an offset in HOURS
(it multiplies by 3600 before storing). -/

/-- `ExecutorError` (src/src/engine/error.rs).  String payloads carry the
static part of the formatted message (quotes dropped); `ParseError`,
`ExpressionError` and `BridgeError` payloads are reduced to what the claims
need. -/
inductive ExecutorError where
  | ParseError
  | ExpressionError (e : ExpressionError)
  | BridgeError
  | JobNotFound (name : String)
  | CircularDependency (path : List String)
  | UnknownAction (what : String)
  | MissingParameter (what : String)
  | InvalidParameter (what : String)
  | StepFailed (msg : String)
  | JobFailed (msg : String)
  | AssertionFailed (msg : String)
  | PlatformMismatch (msg : String)
  | ConfigError (msg : String)
  deriving Repr, DecidableEq

/-- The `"timezone"` arm of `Executor::execute_clock_action`
(executor.rs:1011-1021): look up the `timezone` parameter, parse it (seconds
from UTC) and hand the result to `MockClock::set_timezone` (which expects
hours).  Returns the updated clock state. -/
def execute_clock_timezone (clk : ClockState) (params : List (String × String)) :
    Except ExecutorError ClockState :=
  match params.lookup "timezone" with
  | none => .error (.ConfigError "clock/timezone requires timezone parameter")
  | some tz_str =>
    match parse_timezone tz_str with
    | .error _ => .error (.ConfigError "Invalid timezone format")
    | .ok offset_secs => .ok (clk.set_timezone offset_secs)

/-- C5: code bug.  `parse_timezone "EST"` correctly yields −18000 seconds,
but the executor feeds those seconds into `MockClock::set_timezone`, whose
argument is an offset in hours and which multiplies by 3600.  After a
`clock/timezone` step with timezone `EST` the stored and reported display
offset is −64 800 000 seconds, not the −18000 the claim (and the spec)
state. -/
theorem C5_timezone_offset_double_scaled :
    parse_timezone "EST" = .ok (-18000) ∧
    execute_clock_timezone clockInit [("timezone", "EST")] =
      .ok { clockInit with timezone_offset_secs := -64800000 } ∧
    ((ClockState.set_timezone clockInit (-18000)).get_sync_state).timezone_offset_secs
      = -64800000 ∧
    (-64800000 : Int) ≠ -18000 := by
  refine ⟨by decide, by decide, by decide, by decide⟩

/-! ### Clock monotonicity (C4) -/

/-- One clock operation from the set named by claim C4 (excluding `reset`). -/
inductive ClockOp where
  | set (t : ℚ)
  | forward (d : ℚ)
  | forward_until (t : ℚ)
  | auto_advance_step
  deriving Repr

/-- Apply one operation.  A failing `forward_until` leaves the state
unchanged (the source returns `Err` before writing). -/
def applyClockOp (realNow : ℚ) (clk : ClockState) : ClockOp → ClockState
  | .set t => clk.set t
  | .forward d => clk.forward realNow d
  | .forward_until t => ((clk.forward_until realNow t).toOption).getD clk
  | .auto_advance_step => clk.auto_advance_step realNow

def applyClockOps (realNow : ℚ) (clk : ClockState) (ops : List ClockOp) : ClockState :=
  ops.foldl (applyClockOp realNow) clk

/-- The operations that cannot rewind the clock: `forward` with the
non-negative duration that `std::time::Duration` guarantees,
`forward_until`, and `auto_advance_step` — but not `set`. -/
def ClockOp.noRewind : ClockOp → Prop
  | .set _ => False
  | .forward d => 0 ≤ d
  | .forward_until _ => True
  | .auto_advance_step => True

/-- C4, counterexample.  `set` is in the claim's operation set, and
`MockClock::set` (mock_clock.rs:91-95) overwrites the virtual time with an
arbitrary instant: after `set 100` then `set 50`, `now()` has moved
backwards. -/
theorem C4_counterexample :
    (applyClockOps 0 clockInit [.set 100, .set 50]).now 0
      < (applyClockOps 0 clockInit [.set 100]).now 0 := by
  decide

lemma applyClockOp_step_duration (realNow : ℚ) (clk : ClockState) (op : ClockOp) :
    (applyClockOp realNow clk op).step_duration = clk.step_duration := by
  cases op with
  | set t => rfl
  | forward d => rfl
  | forward_until t =>
    simp only [applyClockOp, ClockState.forward_until]
    split <;> rfl
  | auto_advance_step =>
    simp only [applyClockOp, ClockState.auto_advance_step]
    split <;> rfl

lemma applyClockOp_mono (realNow : ℚ) (clk : ClockState) (op : ClockOp)
    (hvb : clk.virtual_time.isSome) (hd : 0 ≤ clk.step_duration)
    (hop : op.noRewind) :
    clk.now realNow ≤ (applyClockOp realNow clk op).now realNow ∧
      (applyClockOp realNow clk op).virtual_time.isSome := by
  obtain ⟨v, hv⟩ := Option.isSome_iff_exists.mp hvb
  cases op with
  | set t => exact absurd hop (by simp [ClockOp.noRewind])
  | forward d =>
    have hd0 : (0 : ℚ) ≤ d := hop
    constructor
    · simp only [applyClockOp, ClockState.forward, ClockState.now, hv,
        Option.getD_some]
      linarith
    · simp [applyClockOp, ClockState.forward]
  | forward_until t =>
    by_cases h : t < clk.virtual_time.getD realNow
    · have heq : applyClockOp realNow clk (.forward_until t) = clk := by
        simp [applyClockOp, ClockState.forward_until, h, Except.toOption]
      rw [heq]
      exact ⟨le_refl _, hvb⟩
    · have heq : applyClockOp realNow clk (.forward_until t)
          = { clk with virtual_time := some t, frozen := true } := by
        simp [applyClockOp, ClockState.forward_until, h, Except.toOption]
      rw [heq]
      constructor
      · simp only [ClockState.now, hv, Option.getD_some]
        rw [hv, Option.getD_some] at h
        exact le_of_not_lt h
      · simp
  | auto_advance_step =>
    by_cases ha : clk.auto_advance
    · have heq : applyClockOp realNow clk .auto_advance_step
          = { clk with virtual_time := some (clk.virtual_time.getD realNow + clk.step_duration) } := by
        simp [applyClockOp, ClockState.auto_advance_step, ha]
      rw [heq]
      constructor
      · simp only [ClockState.now, hv, Option.getD_some]
        linarith
      · simp
    · have heq : applyClockOp realNow clk .auto_advance_step = clk := by
        simp [applyClockOp, ClockState.auto_advance_step, ha]
      rw [heq]
      exact ⟨le_refl _, hvb⟩

/-- C4, amended.  Excluding `reset` AND `set` (which may rewind to an
arbitrary earlier instant), once virtual time is set, `now()` is
monotonically non-decreasing along any sequence of `forward` /
`forward_until` / `auto_advance_step` operations; the step duration is
non-negative for every reachable clock (`std::time::Duration` is unsigned),
which is carried here as a hypothesis. -/
theorem C4_clock_monotone (ops : List ClockOp) (realNow : ℚ) (clk : ClockState)
    (hv : clk.virtual_time.isSome) (hd : 0 ≤ clk.step_duration)
    (hops : ∀ op ∈ ops, op.noRewind) :
    clk.now realNow ≤ (applyClockOps realNow clk ops).now realNow ∧
      (applyClockOps realNow clk ops).virtual_time.isSome := by
  induction ops generalizing clk with
  | nil => exact ⟨le_refl _, hv⟩
  | cons op ops ih =>
    have h1 := applyClockOp_mono realNow clk op hv hd (hops op (by simp))
    have hd' : 0 ≤ (applyClockOp realNow clk op).step_duration := by
      rw [applyClockOp_step_duration]; exact hd
    have h2 := ih (applyClockOp realNow clk op) h1.2 hd'
      (fun o ho => hops o (by simp [ho]))
    exact ⟨le_trans h1.1 h2.1, h2.2⟩

/-- C4, witness: the amended theorem applied to the clock frozen at instant
0 and the concrete no-`set` sequence `[forward 5, auto_advance_step,
forward_until 100000]`. -/
theorem C4_clock_monotone_witness :
    (clockInit.set 0).now 0
      ≤ (applyClockOps 0 (clockInit.set 0)
          [.forward 5, .auto_advance_step, .forward_until 100000]).now 0 :=
  (C4_clock_monotone [.forward 5, .auto_advance_step, .forward_until 100000]
    0 (clockInit.set 0) (by decide) (by decide)
    (by intro op hop; fin_cases hop <;> simp [ClockOp.noRewind])).1

/-! ### Full-string substitution (`evaluate`, expressions.rs:32) and
conditions (`evaluate_condition`, expressions.rs:133)

The regex `\$\x7b\x7b\s*([^\x7d]+)\s*\x7d\x7d` matches a dollar sign, two
opening braces, a non-empty run of non-closing-brace characters, and two
closing braces; the capture is that run and the source trims it before
evaluation.  `findExprMatches` reproduces exactly the matches
`captures_iter` produces, left to right and non-overlapping. -/

def lbrace : Char := Char.ofNat 123

def rbrace : Char := Char.ofNat 125

/-- All regex matches in a character list, as (full match, capture) pairs.
Fuel-driven: every recursive call consumes at least one character, so
`l.length` fuel (supplied by `findExprMatches`) always suffices and the
zero-fuel branch is unreachable. -/
def findExprMatchesAux : Nat → List Char → List (List Char × List Char)
  | 0, _ => []
  | fuel + 1, l =>
    match l with
    | [] => []
    | c :: cs =>
      if c = '$' then
        match cs with
        | c1 :: c2 :: rest =>
          if c1 = lbrace ∧ c2 = lbrace then
            let body := rest.takeWhile (fun ch => ch ≠ rbrace)
            let after := rest.dropWhile (fun ch => ch ≠ rbrace)
            if body.isEmpty then findExprMatchesAux fuel cs
            else
              match after with
              | b1 :: b2 :: rest2 =>
                if b1 = rbrace ∧ b2 = rbrace then
                  (('$' :: lbrace :: lbrace :: body) ++ [rbrace, rbrace], body)
                    :: findExprMatchesAux fuel rest2
                else findExprMatchesAux fuel cs
              | _ => findExprMatchesAux fuel cs
          else findExprMatchesAux fuel cs
        | _ => findExprMatchesAux fuel cs
      else findExprMatchesAux fuel cs

def findExprMatches (l : List Char) : List (List Char × List Char) :=
  findExprMatchesAux l.length l

/-- Rust `str::replace`: replace every (non-overlapping, left-to-right)
occurrence of `pat` in `s` by `repl`.  Fuel-driven; `s.length` fuel always
suffices because each step consumes at least one character of `s` (`pat` is
never empty at the call sites: every regex match is at least 5 characters
long). -/
def replaceAllAux (pat repl : List Char) : Nat → List Char → List Char
  | 0, s => s
  | fuel + 1, s =>
    match s with
    | [] => []
    | c :: cs =>
      if pat.isPrefixOf s then repl ++ replaceAllAux pat repl fuel (s.drop pat.length)
      else c :: replaceAllAux pat repl fuel cs

def strReplace (s pat repl : String) : String :=
  String.mk (replaceAllAux pat.toList repl.toList s.toList.length s.toList)

/-- `evaluate` (expressions.rs:32): find every match in the input, evaluate
each captured (trimmed) expression, and replace every occurrence of the full
match text in the evolving result string. -/
def evaluate (input : String) (ctx : ExecutionContext) :
    Except ExpressionError String :=
  (findExprMatches input.toList).foldlM
    (fun (result : String) m => do
      let value ← evaluate_single (trimStr (String.mk m.2)) ctx
      pure (strReplace result (String.mk m.1) value))
    input

/-- Whether `pat` occurs as a contiguous subsequence of the list. -/
def listContainsSub (pat : List Char) : List Char → Bool
  | [] => pat.isEmpty
  | c :: cs => pat.isPrefixOf (c :: cs) || listContainsSub pat cs

/-- Rust `str::contains(&str)`. -/
def strContains (s pat : String) : Bool :=
  listContainsSub pat.toList s.toList

/-- Rust `str::split(&str)` (multi-character separator), fuelled like
`replaceAllAux`. -/
def splitSubAux (pat : List Char) : Nat → List Char → List Char → List (List Char)
  | 0, s, acc => [acc.reverse ++ s]
  | fuel + 1, s, acc =>
    match s with
    | [] => [acc.reverse]
    | c :: cs =>
      if pat.isPrefixOf s then
        acc.reverse :: splitSubAux pat fuel (s.drop pat.length) []
      else splitSubAux pat fuel cs (c :: acc)

def splitSub (s pat : String) : List String :=
  (splitSubAux pat.toList s.toList.length s.toList []).map String.mk

/-- Rust `str::trim_matches(c: char)`: strip every leading and trailing
occurrence of `c`. -/
def trimMatches (c : Char) (s : String) : String :=
  String.mk (((s.toList.dropWhile (· = c)).reverse.dropWhile (· = c)).reverse)

/-- `is_truthy` (expressions.rs:181). -/
def is_truthy (value : String) : Bool :=
  value != "" && value != "false" && value != "0" &&
    String.mk (value.toList.map Char.toLower) != "null" &&
    String.mk (value.toList.map Char.toLower) != "none"

/-- One comparison branch of `evaluate_condition` (expressions.rs:144-166):
when the condition contains the separator and splits into exactly two
pieces, evaluate both sides (falling back to the trimmed raw text on
evaluation errors), strip surrounding double then single quotes, and
compare.  `none` means this branch fell through. -/
def condCompare (sep : String) (neg : Bool) (condition : String)
    (ctx : ExecutionContext) : Option Bool :=
  if strContains condition sep then
    match splitSub condition sep with
    | [l, r] =>
      let left :=
        match evaluate (trimStr l) ctx with
        | .ok v => v
        | .error _ => trimStr l
      let right :=
        match evaluate (trimStr r) ctx with
        | .ok v => v
        | .error _ => trimStr r
      let lq := trimMatches (Char.ofNat 39) (trimMatches '"' left)
      let rq := trimMatches (Char.ofNat 39) (trimMatches '"' right)
      some (if neg then lq != rq else lq == rq)
    | _ => none
  else none

/-- `evaluate_condition` (expressions.rs:133): `==` comparison, then `!=`,
then the hard-coded `success()`/`failure()`/`always()`, then bare-expression
truthiness. -/
def evaluate_condition (condition : String) (ctx : ExecutionContext) :
    Except ExpressionError Bool :=
  let condition := trimStr condition
  match condCompare "==" false condition ctx with
  | some b => .ok b
  | none =>
    match condCompare "!=" true condition ctx with
    | some b => .ok b
    | none =>
      if condition = "success()" then .ok true
      else if condition = "failure()" then .ok false
      else if condition = "always()" then .ok true
      else do
        let value ← evaluate condition ctx
        pure (is_truthy value)

/-! ## Time parsing (mock_clock.rs:293, `parse_time`)

`parse_time` first tries RFC 3339, then `s.parse::<i64>()` interpreted as
seconds via `chrono::DateTime::from_timestamp`, then (for values above
10^12) as milliseconds via `from_timestamp_millis`.  The claims quantify
only over strings that parse as signed integers; no such string is valid
RFC 3339 (that grammar requires `-` separators and a `T`), so the model
takes the already-parsed `i64` value as input and embeds the two timestamp
branches.  Results are instants in milliseconds since the epoch. -/

/-- Days between the civil (proleptic Gregorian, astronomical year
numbering) date `y-m-d` and 1970-01-01; Howard Hinnant's `days_from_civil`
algorithm, the same date arithmetic chrono uses. -/
def daysFromCivil (y m d : Int) : Int :=
  let y := if m ≤ 2 then y - 1 else y
  let era := (if 0 ≤ y then y else y - 399) / 400
  let yoe := y - era * 400
  let doy := (153 * (if 2 < m then m - 3 else m + 9) + 2) / 5 + d - 1
  let doe := yoe * 365 + yoe / 4 - yoe / 100 + doy
  era * 146097 + doe - 719468

/-- Smallest timestamp (seconds) representable by `chrono`:
midnight of `NaiveDate::MIN` = −262143-01-01. -/
def CHRONO_SECS_MIN : Int := 86400 * daysFromCivil (-262143) 1 1

/-- Largest timestamp (seconds) representable by `chrono`:
23:59:59 of `NaiveDate::MAX` = 262142-12-31. -/
def CHRONO_SECS_MAX : Int := 86400 * daysFromCivil 262142 12 31 + 86399

/-- `chrono::DateTime::from_timestamp(secs, 0)`: succeeds exactly on the
representable range, yielding the instant (in milliseconds here). -/
def fromTimestamp (secs : Int) : Option Int :=
  if CHRONO_SECS_MIN ≤ secs ∧ secs ≤ CHRONO_SECS_MAX then some (secs * 1000)
  else none

/-- `chrono::DateTime::from_timestamp_millis(ms)`. -/
def fromTimestampMillis (ms : Int) : Option Int :=
  if CHRONO_SECS_MIN * 1000 ≤ ms ∧ ms ≤ CHRONO_SECS_MAX * 1000 + 999 then some ms
  else none

/-- `parse_time` (mock_clock.rs:293) on an input string whose
`parse::<i64>()` value is `ts` (the RFC 3339 branch does not fire for such
strings).  The error payload carries the rendered input. -/
def parse_time_num (ts : Int) : Except ClockError Int :=
  match fromTimestamp ts with
  | some dt => .ok dt
  | none =>
    if ts > 1000000000000 then
      match fromTimestampMillis ts with
      | some dt => .ok dt
      | none => .error (.InvalidTimeFormat (toString ts))
    else .error (.InvalidTimeFormat (toString ts))

/-- C6, counterexample.  The claim says an integer of magnitude above 10^12,
such as the 13-digit `1705315800000`, is interpreted as milliseconds.  On
the code, `from_timestamp(1705315800000, 0)` succeeds (the value is well
inside chrono's seconds range, which extends to ≈8.21×10^12), so the
seconds branch fires first and the result is the instant 1705315800000
SECONDS after the epoch — not the instant 1705315800000 ms that the
milliseconds rule would give. -/
theorem C6_counterexample :
    parse_time_num 1705315800000 = .ok (1705315800000 * 1000) ∧
    (1705315800000 * 1000 : Int) ≠ 1705315800000 := by
  constructor
  · decide
  · decide

/-- C6, amended.  For integer inputs, `parse_time` interprets the value as
seconds whenever it lies in chrono's representable seconds range
`[CHRONO_SECS_MIN, CHRONO_SECS_MAX]` ≈ `[−8.33×10^12, 8.21×10^12]` — which
covers every magnitude up to well beyond 10^12 — and as milliseconds only
when the value exceeds `CHRONO_SECS_MAX` (such values are automatically
above 10^12) and fits the milliseconds range; anything else is an
`InvalidTimeFormat` error.  Moreover the spec's example value `1705315800`
parses (by the seconds rule) to 2024-01-15T10:50:00Z — twenty minutes after
the 10:30:00Z the claim states. -/
theorem C6_parse_time_integer_rules :
    (∀ ts : Int, CHRONO_SECS_MIN ≤ ts → ts ≤ CHRONO_SECS_MAX →
      parse_time_num ts = .ok (ts * 1000)) ∧
    (∀ ts : Int, CHRONO_SECS_MAX < ts → ts ≤ CHRONO_SECS_MAX * 1000 + 999 →
      parse_time_num ts = .ok ts) ∧
    (∀ ts : Int, CHRONO_SECS_MAX * 1000 + 999 < ts →
      parse_time_num ts = .error (.InvalidTimeFormat (toString ts))) ∧
    (∀ ts : Int, ts < CHRONO_SECS_MIN →
      parse_time_num ts = .error (.InvalidTimeFormat (toString ts))) ∧
    parse_time_num 1705315800 = .ok (1705315800 * 1000) ∧
    (1705315800 : Int) = 86400 * daysFromCivil 2024 1 15 + (10 * 3600 + 50 * 60) := by
  have hmaxpos : (0 : Int) < CHRONO_SECS_MAX := by decide
  refine ⟨?_, ?_, ?_, ?_, by decide, by decide⟩
  · intro ts h1 h2
    simp [parse_time_num, fromTimestamp, h1, h2]
  · intro ts h1 h2
    have hns : ¬ (CHRONO_SECS_MIN ≤ ts ∧ ts ≤ CHRONO_SECS_MAX) := by
      rintro ⟨-, h⟩; exact absurd h1 (not_lt.mpr h)
    have h12 : ts > 1000000000000 := by
      have : (1000000000000 : Int) < CHRONO_SECS_MAX := by decide
      omega
    have hms : CHRONO_SECS_MIN * 1000 ≤ ts ∧ ts ≤ CHRONO_SECS_MAX * 1000 + 999 := by
      constructor
      · have : CHRONO_SECS_MIN * 1000 ≤ 0 := by decide
        omega
      · exact h2
    simp [parse_time_num, fromTimestamp, hns, h12, fromTimestampMillis, hms]
  · intro ts h1
    have hns : ¬ (CHRONO_SECS_MIN ≤ ts ∧ ts ≤ CHRONO_SECS_MAX) := by
      rintro ⟨-, h⟩
      have : CHRONO_SECS_MAX ≤ CHRONO_SECS_MAX * 1000 + 999 := by decide
      omega
    have h12 : ts > 1000000000000 := by
      have : (1000000000000 : Int) < CHRONO_SECS_MAX * 1000 + 999 := by decide
      omega
    have hms : ¬ (CHRONO_SECS_MIN * 1000 ≤ ts ∧ ts ≤ CHRONO_SECS_MAX * 1000 + 999) := by
      rintro ⟨-, h⟩; exact absurd h1 (not_lt.mpr h)
    simp [parse_time_num, fromTimestamp, hns, h12, fromTimestampMillis, hms]
  · intro ts h1
    have hns : ¬ (CHRONO_SECS_MIN ≤ ts ∧ ts ≤ CHRONO_SECS_MAX) := by
      rintro ⟨h, -⟩; exact absurd h1 (not_lt.mpr h)
    have h12 : ¬ ts > 1000000000000 := by
      have : CHRONO_SECS_MIN < 1000000000000 := by decide
      omega
    simp [parse_time_num, fromTimestamp, hns, h12]

/-- C6, witness: the amended theorem's seconds rule applied at the spec's
example input 1705315800. -/
theorem C6_parse_time_integer_rules_witness :
    parse_time_num 1705315800 = .ok (1705315800 * 1000) :=
  C6_parse_time_integer_rules.1 1705315800 (by decide) (by decide)

/-! ## Duration parsing (mock_clock.rs:234, `parse_duration`)

The source accumulates digit-and-dot runs into `current_num`, parses each as
an `f64` when a unit character arrives, converts to milliseconds and adds
`Duration::from_millis(millis as u64)` to the running total; a trailing
run without a unit is added as seconds via `Duration::from_secs_f64`.
Numbers are embedded as exact rationals (every claim input is an integer,
on which `f64` arithmetic is exact); durations as rationals of
milliseconds. -/

/-- Numeric value of a digit list. -/
def digitsVal (ds : List Char) : ℚ :=
  ds.foldl (fun n c => n * 10 + ((c.toNat - 48 : ℕ) : ℚ)) 0

/-- Rust `str::parse::<f64>` restricted to strings of digits and dots (the
only content `current_num` can hold): at most one dot and at least one
digit, value read exactly.  `"5."` and `".5"` parse; `"."`, `""` and
`"1.2.3"` do not. -/
def parseDecimal (s : String) : Option ℚ :=
  let cs := s.toList
  match splitOnceAux '.' cs with
  | none =>
    if cs ≠ [] ∧ cs.all Char.isDigit then some (digitsVal cs) else none
  | some (intPart, fracPart) =>
    if (intPart = [] ∧ fracPart = []) then none
    else if intPart.all Char.isDigit ∧ fracPart.all Char.isDigit then
      some (digitsVal intPart + digitsVal fracPart / (10 : ℚ) ^ fracPart.length)
    else none

/-- `Duration::from_millis(millis as u64)`: the `f64`-to-`u64` cast
truncates toward zero and saturates at `u64::MAX` (the value is always
non-negative here, being built from digits). -/
def durFromMillis (ms : ℚ) : ℚ :=
  ((min ms.floor.toNat (2 ^ 64 - 1) : ℕ) : ℚ)

/-- Milliseconds for one `<number><unit>` group (mock_clock.rs:261-275);
`none` means the unknown-unit error.  `m` is minutes unconditionally. -/
def unitMillis (c : Char) (num : ℚ) : Option ℚ :=
  match c with
  | 'd' => some (num * (24 * 60 * 60 * 1000))
  | 'h' => some (num * (60 * 60 * 1000))
  | 'm' => some (num * (60 * 1000))
  | 's' => some (num * 1000)
  | _ => none

/-- The character loop of `parse_duration` (mock_clock.rs:245-287), with the
trailing-number handling of lines 282-287 in the base case.  `total` is in
milliseconds; `num` is the pending `current_num`. -/
def parse_durationLoop : List Char → ℚ → List Char → Except ClockError ℚ
  | [], total, num =>
    if num = [] then .ok total
    else
      match parseDecimal (String.mk num) with
      | none => .error (.InvalidDurationFormat (.invalidNumber (String.mk num)))
      | some q => .ok (total + q * 1000)
  | c :: cs, total, num =>
    if c.isDigit ∨ c = '.' then parse_durationLoop cs total (num ++ [c])
    else if num = [] then
      .error (.InvalidDurationFormat (.expectedNumberBeforeUnit c))
    else
      match parseDecimal (String.mk num) with
      | none => .error (.InvalidDurationFormat (.invalidNumber (String.mk num)))
      | some q =>
        match unitMillis c q with
        | none => .error (.InvalidDurationFormat (.unknownUnit c))
        | some ms => parse_durationLoop cs (total + durFromMillis ms) []

/-- `parse_duration` (mock_clock.rs:234): trim, reject the empty string,
then run the loop.  Result in milliseconds. -/
def parse_duration (s : String) : Except ClockError ℚ :=
  let t := trimStr s
  if t = "" then .error (.InvalidDurationFormat .emptyString)
  else parse_durationLoop t.toList 0 []

/-- Any input in which the character `m` is directly followed by `s` makes
`parse_duration` fail with `InvalidDurationFormat`: processing `m` either
fails outright or consumes the pending number (as minutes) and clears it,
so the following `s` always finds an empty `current_num`. -/
lemma parse_durationLoop_ms (l2 : List Char) :
    ∀ (l1 : List Char) (total : ℚ) (num : List Char),
      ∃ r, parse_durationLoop (l1 ++ 'm' :: 's' :: l2) total num
        = .error (.InvalidDurationFormat r) := by
  intro l1
  induction l1 with
  | nil =>
    intro total num
    by_cases hnum : num = []
    · exact ⟨.expectedNumberBeforeUnit 'm', by simp [parse_durationLoop, hnum]⟩
    · rcases hq : parseDecimal (String.mk num) with _ | q
      · exact ⟨.invalidNumber (String.mk num), by
          simp [parse_durationLoop, hnum, hq]⟩
      · refine ⟨.expectedNumberBeforeUnit 's', ?_⟩
        simp [parse_durationLoop, hnum, hq, unitMillis]
  | cons c l1 ih =>
    intro total num
    by_cases hc : c.isDigit ∨ c = '.'
    · obtain ⟨r, hr⟩ := ih total (num ++ [c])
      exact ⟨r, by simpa [parse_durationLoop, hc] using hr⟩
    · by_cases hnum : num = []
      · exact ⟨.expectedNumberBeforeUnit c, by simp [parse_durationLoop, hc, hnum]⟩
      · rcases hq : parseDecimal (String.mk num) with _ | q
        · exact ⟨.invalidNumber (String.mk num), by
            simp [parse_durationLoop, hc, hnum, hq]⟩
        · rcases hu : unitMillis c q with _ | ms
          · exact ⟨.unknownUnit c, by simp [parse_durationLoop, hc, hnum, hq, hu]⟩
          · obtain ⟨r, hr⟩ := ih (total + durFromMillis ms) []
            exact ⟨r, by simpa [parse_durationLoop, hc, hnum, hq, hu] using hr⟩

section

attribute [local semireducible] Rat.mul Rat.add

/-- C7.  The duration grammar: `<number><unit>` groups with units d/h/m/s
and a trailing unit-less number in seconds — `"1h30m"` is 5 400 000 ms
(5400 s), `"500s"` is 500 000 ms, `"2d"` is 172 800 000 ms — and every
input containing the two-character sequence `ms` is rejected with an
`InvalidDurationFormat` error; for `"500ms"` specifically the parser fails
at the second character of the unit (`expected number before unit 's'`),
after having read `m` as minutes. -/
theorem C7_parse_duration_grammar :
    parse_duration "1h30m" = .ok 5400000 ∧
    parse_duration "500s" = .ok 500000 ∧
    parse_duration "2d" = .ok 172800000 ∧
    parse_duration "500ms"
      = .error (.InvalidDurationFormat (.expectedNumberBeforeUnit 's')) ∧
    ∀ s : String, (∃ l1 l2, (trimStr s).toList = l1 ++ 'm' :: 's' :: l2) →
      ∃ r, parse_duration s = .error (.InvalidDurationFormat r) := by
  refine ⟨by decide, by decide, by decide, by decide, ?_⟩
  rintro s ⟨l1, l2, hs⟩
  have ht : ¬ trimStr s = "" := by
    intro h
    rw [h] at hs
    simp at hs
  obtain ⟨r, hr⟩ := parse_durationLoop_ms l2 l1 0 []
  refine ⟨r, ?_⟩
  simp only [parse_duration, ht, if_false]
  rw [hs]
  exact hr

/-- C7, witness: the universally quantified `ms`-rejection applied at the
concrete input `"1h30ms"`. -/
theorem C7_parse_duration_grammar_witness :
    ∃ r, parse_duration "1h30ms" = .error (.InvalidDurationFormat r) :=
  C7_parse_duration_grammar.2.2.2.2 "1h30ms"
    ⟨['1', 'h', '3', '0'], [], by decide⟩

end

/-! ## Runner configuration profiles (src/src/workflow/runner_config.rs)

`PlatformsConfig` has one optional entry per platform; the per-platform
payloads (registry paths etc.) are opaque to claim C9 and embedded as a
type parameter.  `RunnerConfig` fields not exercised by any claim
(`parallel`, `fail_fast`, `database`, hooks, profile env/hooks) are
omitted. -/

structure PlatformsConfig (α : Type) where
  playwright : Option α := none
  nodejs : Option α := none
  rust : Option α := none
  python : Option α := none
  java : Option α := none
  go : Option α := none
  web : Option α := none
  deriving Repr, DecidableEq

structure Profile (α : Type) where
  platforms : PlatformsConfig α
  deriving Repr, DecidableEq

structure RunnerConfig (α : Type) where
  platforms : PlatformsConfig α
  profiles : List (String × Profile α)
  deriving Repr, DecidableEq

namespace RunnerConfig

/-- `RunnerConfig::profile_names` (runner_config.rs:146). -/
def profile_names {α} (c : RunnerConfig α) : List String :=
  if c.profiles.isEmpty then ["default"] else c.profiles.map Prod.fst

/-- `RunnerConfig::platforms_for` (runner_config.rs:155): the runner-level
block for `"default"`, an empty profile table or an unknown name; otherwise
the named profile's own block — alone. -/
def platforms_for {α} (c : RunnerConfig α) (profile_name : String) :
    PlatformsConfig α :=
  if profile_name = "default" ∨ c.profiles.isEmpty then c.platforms
  else
    match c.profiles.lookup profile_name with
    | some profile => profile.platforms
    | none => c.platforms

end RunnerConfig

/-- The platforms each profile's directory run receives in
`WorkflowDirectoryRunner::run_multi` (directory_runner.rs:177-194): for
every profile name, `config.platforms_for(&name)` is handed to the
sub-runner's `platforms` builder, which REPLACES its platforms field. -/
def run_multi_platforms {α} (c : RunnerConfig α) :
    List (String × PlatformsConfig α) :=
  c.profile_names.map (fun name => (name, c.platforms_for name))

/-- The merge the spec describes (`Modelled from the spec:` «each profile
supplies its own `platforms` block (merged with runner-level platforms)»):
entry-wise, the profile's entry wins and runner-level entries fill the
gaps.  Used only to contrast with what the code computes. -/
def mergePlatformsSpec {α} (base override : PlatformsConfig α) :
    PlatformsConfig α where
  playwright := (override.playwright).orElse (fun _ => base.playwright)
  nodejs := (override.nodejs).orElse (fun _ => base.nodejs)
  rust := (override.rust).orElse (fun _ => base.rust)
  python := (override.python).orElse (fun _ => base.python)
  java := (override.java).orElse (fun _ => base.java)
  go := (override.go).orElse (fun _ => base.go)
  web := (override.web).orElse (fun _ => base.web)

/-- A runner config with a runner-level-only `web` entry and one declared
profile `p` whose own platforms block is empty. -/
def runnerCfgEx : RunnerConfig String :=
  { platforms := { web := some "runner-web" }
    profiles := [("p", { platforms := {} })] }

/-- C9, counterexample.  With a `web` platform configured only at runner
level and a profile `p` with an empty platforms block,
`platforms_for "p"` — and hence the configuration `run_multi` hands to
profile `p`'s directory run — contains no `web` entry at all, whereas the
merge the claim describes would retain the runner-level entry. -/
theorem C9_counterexample :
    (runnerCfgEx.platforms_for "p").web = none ∧
    (mergePlatformsSpec runnerCfgEx.platforms
      (PlatformsConfig.mk none none none none none none none)).web
      = some "runner-web" ∧
    run_multi_platforms runnerCfgEx
      = [("p", PlatformsConfig.mk none none none none none none none)] := by
  refine ⟨by decide, by decide, by decide⟩

/-- C9, amended.  For a declared profile (name ≠ `"default"` present in the
profile table), the platforms configuration used for that profile's
directory run is the profile's OWN platforms block alone — the runner-level
block is replaced, not merged, so a platform entry configured only at
runner level is absent from every declared profile's run.  The runner-level
block is used only for the name `"default"`, an unknown name, or when no
profiles are declared. -/
theorem C9_profile_platforms_replace {α} (c : RunnerConfig α) (name : String)
    (p : Profile α) (hname : name ≠ "default")
    (hp : c.profiles.lookup name = some p) :
    c.platforms_for name = p.platforms ∧
    ∀ entry ∈ run_multi_platforms c, entry.1 = name → entry.2 = p.platforms := by
  have hne : ¬ c.profiles.isEmpty := by
    intro h
    rw [List.isEmpty_iff.mp h] at hp
    simp [List.lookup] at hp
  have h1 : c.platforms_for name = p.platforms := by
    simp only [RunnerConfig.platforms_for, hname, hne, or_self, if_false, hp]
    simp [hname, hne]
  refine ⟨h1, ?_⟩
  intro entry hentry hname'
  simp only [run_multi_platforms, List.mem_map] at hentry
  obtain ⟨n, _, rfl⟩ := hentry
  simp only at hname'
  rw [hname']
  exact h1

/-- C9, witness: the amended theorem applied to the concrete config
`runnerCfgEx` and its profile `p`. -/
theorem C9_profile_platforms_replace_witness :
    runnerCfgEx.platforms_for "p" = PlatformsConfig.mk none none none none none none none :=
  (C9_profile_platforms_replace runnerCfgEx "p" { platforms := {} }
    (by decide) (by decide)).1

/-! ## Workflow data model (src/src/workflow/job.rs)

Only the fields the executor's control flow reads directly are embedded.
Omitted from `Step`: `name` (logging only), `platform`/`with`/`env`/
`timeout`/`retry` (consumed inside the dispatch, which is abstracted as an
oracle below).  Omitted from `Job`: `name`, `platform`, `browser`,
`headless`, `viewport`, `timeout` (same reason).  Omitted from `Workflow`:
`name` (logging), `depends_on` (directory-level, modelled in the scheduler
section), `platform`/`platforms`/`defaults` (consumed by the dispatch). -/

structure Step where
  uses : String
  condition : Option String
  id : Option String
  continue_on_error : Bool
  deriving Repr, DecidableEq

structure Job where
  needs : List String
  condition : Option String
  env : List (String × String)
  before : List Step
  after : List Step
  steps : List Step
  continue_on_error : Bool
  deriving Repr, DecidableEq

structure Workflow where
  env : List (String × String)
  before : List Step
  after : List Step
  jobs : List (String × Job)
  deriving Repr, DecidableEq

/-- The job names, in the map's iteration order. -/
def keysOf (jobs : List (String × Job)) : List String :=
  jobs.map Prod.fst

lemma lookup_eq_none_iff {β : Type} (l : List (String × β)) (name : String) :
    l.lookup name = none ↔ name ∉ l.map Prod.fst := by
  induction l with
  | nil => simp
  | cons p l ih =>
    obtain ⟨k, v⟩ := p
    by_cases h : name = k
    · subst h
      simp [List.lookup_cons]
    · have hbeq : (name == k) = false := beq_eq_false_iff_ne.mpr h
      simp only [List.lookup_cons, hbeq, List.map_cons, List.mem_cons]
      rw [ih]
      simp [h]

lemma lookup_isSome_of_mem_keys {β : Type} {l : List (String × β)} {name : String}
    (h : name ∈ l.map Prod.fst) : (l.lookup name).isSome := by
  rcases hl : l.lookup name with _ | v
  · exact absurd h ((lookup_eq_none_iff l name).mp hl)
  · simp

lemma mem_keys_of_lookup_some {β : Type} {l : List (String × β)} {name : String}
    {v : β} (h : l.lookup name = some v) : name ∈ l.map Prod.fst := by
  by_contra hmem
  rw [← lookup_eq_none_iff l name] at hmem
  rw [h] at hmem
  exact Option.noConfusion hmem

/-- Inversion for `Except.map` hitting `ok`. -/
lemma exceptMap_eq_ok_iff {ε α β : Type} (f : α → β) (x : Except ε α) (b : β) :
    x.map f = .ok b ↔ ∃ a, x = .ok a ∧ f a = b := by
  cases x <;> simp [Except.map]

/-- Inversion for `Except.bind` hitting `ok`. -/
lemma exceptBind_eq_ok_iff {ε α β : Type} (g : α → Except ε β) (x : Except ε α)
    (b : β) : x.bind g = .ok b ↔ ∃ a, x = .ok a ∧ g a = .ok b := by
  cases x <;> simp [Except.bind]

/-! ## Topological sort of jobs (executor.rs:1123-1176)

Depth-first search with a `visited` set, a `temp_visited` set marking the
current recursion path (for cycle detection) and an output list `result`.
The unbounded Rust recursion is embedded with explicit fuel;
`topological_sort` supplies `jobs.length + 1`, which is sufficient for
every input because each nested call strictly grows `temp_visited` inside
the key set (the bound is discharged inside `visit_ok` below). -/

inductive TopoFail where
  | JobNotFound (name : String)
  | CircularDependency (path : List String)
  | fuelExhausted
  deriving Repr, DecidableEq

structure TopoSt where
  visited : List String
  temp_visited : List String
  result : List String
  deriving Repr, DecidableEq

/-- The `for dep in &job.needs` loop inside `visit` (executor.rs:1148-1153):
check `contains_key` for the dep, then recurse into it. -/
def visitDeps (f : String → TopoSt → Except TopoFail TopoSt)
    (jobs : List (String × Job)) : List String → TopoSt → Except TopoFail TopoSt
  | [], st => .ok st
  | dep :: deps, st =>
    if (jobs.lookup dep).isSome then
      (f dep st).bind (visitDeps f jobs deps)
    else .error (.JobNotFound dep)

/-- The tail of `visit` (executor.rs:1156-1159): pop the path (implicit
here), unmark `temp_visited`, mark visited and push onto the result. -/
def visitFinish (name : String) (st : TopoSt) : TopoSt :=
  { visited := name :: st.visited
    temp_visited := st.temp_visited.erase name
    result := st.result ++ [name] }

/-- `visit` (executor.rs:1129-1162).  `path` is the caller-maintained
`Vec<String>`; since the source pushes `name` before the dep loop and pops
it afterwards, the extension is passed down to the recursive calls and the
argument itself is read-only. -/
def visit (jobs : List (String × Job)) :
    Nat → String → List String → TopoSt → Except TopoFail TopoSt
  | 0, _, _, _ => .error .fuelExhausted
  | fuel + 1, name, path, st =>
    if name ∈ st.temp_visited then .error (.CircularDependency path)
    else if name ∈ st.visited then .ok st
    else
      match jobs.lookup name with
      | some job =>
        (visitDeps (fun d s => visit jobs fuel d (path ++ [name]) s) jobs
            job.needs { st with temp_visited := name :: st.temp_visited }).map
          (visitFinish name)
      | none =>
        .ok (visitFinish name { st with temp_visited := name :: st.temp_visited })

/-- The `for name in jobs.keys()` driver loop (executor.rs:1164-1173). -/
def topoFold (jobs : List (String × Job)) :
    List String → TopoSt → Except TopoFail TopoSt
  | [], st => .ok st
  | name :: names, st =>
    (visit jobs (jobs.length + 1) name [] st).bind (topoFold jobs names)

/-- `Executor::topological_sort` (executor.rs:1124). -/
def topological_sort (jobs : List (String × Job)) : Except TopoFail (List String) :=
  (topoFold jobs (keysOf jobs) ⟨[], [], []⟩).map TopoSt.result

/-- The dependency edge relation: `edge jobs a b` when job `a` lists `b` in
its `needs`. -/
def edge (jobs : List (String × Job)) (a b : String) : Prop :=
  ∃ j, jobs.lookup a = some j ∧ b ∈ j.needs

/-- The job `needs` relation is acyclic: no job transitively needs itself. -/
def Acyclic (jobs : List (String × Job)) : Prop :=
  ∀ a, ¬ Relation.TransGen (edge jobs) a a

/-- `r` is dependency-closed and ordered: every listed job's needs appear
strictly earlier. -/
def ordClosed (jobs : List (String × Job)) (r : List String) : Prop :=
  ∀ i A, r[i]? = some A → ∀ j, jobs.lookup A = some j → ∀ B ∈ j.needs, B ∈ r.take i

/-- The invariant every successful `visit` preserves. -/
def TopoInv (jobs : List (String × Job)) (st : TopoSt) : Prop :=
  (∀ a ∈ st.result, a ∈ keysOf jobs) ∧
  st.result.Nodup ∧
  (∀ a, a ∈ st.visited ↔ a ∈ st.result) ∧
  (∀ a ∈ st.temp_visited, a ∉ st.visited) ∧
  ordClosed jobs st.result

lemma ordClosed_append (jobs : List (String × Job)) (r : List String) (name : String)
    (hr : ordClosed jobs r)
    (hneeds : ∀ j, jobs.lookup name = some j → ∀ B ∈ j.needs, B ∈ r) :
    ordClosed jobs (r ++ [name]) := by
  intro i A hA j hj B hB
  rcases lt_or_ge i r.length with hi | hi
  · rw [List.getElem?_append, if_pos hi] at hA
    have hmem := hr i A hA j hj B hB
    rw [List.take_append_of_le_length (le_of_lt hi)]
    exact hmem
  · have hlen : i < r.length + 1 := by
      by_contra hlen
      have hnone : (r ++ [name])[i]? = none :=
        List.getElem?_eq_none (by simp; omega)
      rw [hnone] at hA
      exact Option.noConfusion hA
    have hi' : i = r.length := by omega
    subst hi'
    have hA' : A = name := by
      rw [List.getElem?_append, if_neg (lt_irrefl _), Nat.sub_self] at hA
      simpa using hA.symm
    subst hA'
    rw [List.take_append_of_le_length (le_refl _), List.take_length]
    exact hneeds j hj B hB

/-- Postconditions of a successful `visit`, for any fuel: the invariant is
preserved, `temp_visited` is restored, `result` only grows by appending,
and `name` ends up in `result`. -/
lemma visit_post (jobs : List (String × Job)) :
    ∀ (fuel : Nat) (name : String) (path : List String) (st st' : TopoSt),
      visit jobs fuel name path st = .ok st' →
      name ∈ keysOf jobs →
      TopoInv jobs st →
      TopoInv jobs st' ∧ st'.temp_visited = st.temp_visited ∧
        (∃ new, st'.result = st.result ++ new) ∧ name ∈ st'.result := by
  intro fuel
  induction fuel with
  | zero => intro name path st st' h; exact absurd h (by simp [visit])
  | succ fuel ih =>
    have hdeps : ∀ (path' : List String) (deps : List String) (st st' : TopoSt),
        visitDeps (fun d s => visit jobs fuel d path' s) jobs deps st = .ok st' →
        TopoInv jobs st →
        TopoInv jobs st' ∧ st'.temp_visited = st.temp_visited ∧
          (∃ new, st'.result = st.result ++ new) ∧
          ∀ d ∈ deps, d ∈ st'.result := by
      intro path' deps
      induction deps with
      | nil =>
        intro st st' h hInv
        simp only [visitDeps] at h
        cases h
        exact ⟨hInv, rfl, ⟨[], by simp⟩, by simp⟩
      | cons dep deps ihd =>
        intro st st' h hInv
        simp only [visitDeps] at h
        by_cases hk : (jobs.lookup dep).isSome
        · rw [if_pos hk] at h
          obtain ⟨stm, hv, h2⟩ := (exceptBind_eq_ok_iff _ _ _).mp h
          have hkm : dep ∈ keysOf jobs := by
            rcases hl : jobs.lookup dep with _ | j
            · rw [hl] at hk; exact absurd hk (by simp)
            · exact mem_keys_of_lookup_some hl
          obtain ⟨hInvMid, htemp, ⟨new1, hres1⟩, hdm⟩ := ih dep path' st stm hv hkm hInv
          obtain ⟨hInv', htemp', ⟨new2, hres2⟩, hall⟩ := ihd stm st' h2 hInvMid
          refine ⟨hInv', htemp'.trans htemp,
            ⟨new1 ++ new2, by rw [hres2, hres1, List.append_assoc]⟩, ?_⟩
          intro d hd
          rcases List.mem_cons.mp hd with rfl | hd'
          · rw [hres2]; exact List.mem_append_left _ hdm
          · exact hall d hd'
        · rw [if_neg hk] at h
          exact absurd h (by simp)
    intro name path st st' h hk hInv
    simp only [visit] at h
    by_cases htemp : name ∈ st.temp_visited
    · rw [if_pos htemp] at h; exact absurd h (by simp)
    · rw [if_neg htemp] at h
      by_cases hvis : name ∈ st.visited
      · rw [if_pos hvis] at h
        cases h
        exact ⟨hInv, rfl, ⟨[], by simp⟩, (hInv.2.2.1 name).mp hvis⟩
      · rw [if_neg hvis] at h
        obtain ⟨hres_keys, hres_nodup, hvis_iff, hdisj, hord⟩ := hInv
        rcases hl : jobs.lookup name with _ | job
        · exact absurd hk ((lookup_eq_none_iff jobs name).mp hl)
        · rw [hl] at h
          obtain ⟨st2, hvd, hfin⟩ := (exceptMap_eq_ok_iff _ _ _).mp h
          subst hfin
          have hInv1 : TopoInv jobs { st with temp_visited := name :: st.temp_visited } := by
            refine ⟨hres_keys, hres_nodup, hvis_iff, ?_, hord⟩
            intro a ha
            rcases List.mem_cons.mp ha with rfl | ha'
            · exact hvis
            · exact hdisj a ha'
          obtain ⟨⟨hk2, hnd2, hiff2, hdis2, hord2⟩, htemp2, ⟨new, hres2⟩, hneeds2⟩ :=
            hdeps (path ++ [name]) job.needs _ st2 hvd hInv1
          have hname_notin2 : name ∉ st2.result := by
            intro hmem
            have hv2 : name ∈ st2.visited := (hiff2 name).mpr hmem
            exact hdis2 name (by rw [htemp2]; exact List.mem_cons_self _ _) hv2
          refine ⟨⟨?_, ?_, ?_, ?_, ?_⟩, ?_, ?_, ?_⟩
          · intro a ha
            rcases List.mem_append.mp ha with ha' | ha'
            · exact hk2 a ha'
            · rw [List.mem_singleton.mp ha']; exact hk
          · exact List.Nodup.append hnd2 (List.nodup_singleton name)
              (by intro a ha hb; rw [List.mem_singleton.mp hb] at ha; exact hname_notin2 ha)
          · intro a
            show a ∈ name :: st2.visited ↔ a ∈ st2.result ++ [name]
            rw [List.mem_cons, List.mem_append, List.mem_singleton]
            constructor
            · rintro (rfl | ha)
              · right; rfl
              · left; exact (hiff2 a).mp ha
            · rintro (ha | rfl)
              · right; exact (hiff2 a).mpr ha
              · left; rfl
          · intro a ha
            have htv : (visitFinish name st2).temp_visited = st.temp_visited := by
              simp only [visitFinish]
              rw [htemp2]
              exact List.erase_cons_head name st.temp_visited
            rw [htv] at ha
            intro hmem
            rcases List.mem_cons.mp hmem with h' | h'
            · exact htemp (h' ▸ ha)
            · exact hdis2 a (by rw [htemp2]; exact List.mem_cons_of_mem _ ha) h'
          · refine ordClosed_append jobs st2.result name hord2 ?_
            intro j hj B hB
            rw [hl] at hj
            cases hj
            exact hneeds2 B hB
          · show (visitFinish name st2).temp_visited = st.temp_visited
            simp only [visitFinish]
            rw [htemp2]
            exact List.erase_cons_head name st.temp_visited
          · exact ⟨new ++ [name], by
              show st2.result ++ [name] = st.result ++ (new ++ [name])
              rw [hres2, List.append_assoc]⟩
          · exact List.mem_append_right _ (List.mem_singleton_self name)

lemma lookup_mem {β : Type} {l : List (String × β)} {a : String} {b : β}
    (h : l.lookup a = some b) : (a, b) ∈ l := by
  induction l with
  | nil => simp at h
  | cons p l ih =>
    obtain ⟨k, v⟩ := p
    by_cases hak : a = k
    · subst hak
      rw [List.lookup_cons] at h
      simp only [beq_self_eq_true] at h
      cases h
      exact List.mem_cons_self _ _
    · have hbeq : (a == k) = false := beq_eq_false_iff_ne.mpr hak
      rw [List.lookup_cons] at h
      simp only [hbeq] at h
      exact List.mem_cons_of_mem _ (ih h)

lemma nodup_subset_length {l l' : List String} (hnd : l.Nodup)
    (hsub : ∀ x ∈ l, x ∈ l') : l.length ≤ l'.length := by
  induction l generalizing l' with
  | nil => simp
  | cons a l ih =>
    obtain ⟨hal, hnd'⟩ := List.nodup_cons.mp hnd
    have hmem : a ∈ l' := hsub a (List.mem_cons_self _ _)
    have hsub' : ∀ x ∈ l, x ∈ l'.erase a := by
      intro x hx
      have hxa : x ≠ a := fun he => hal (he ▸ hx)
      rw [List.mem_erase_of_ne hxa]
      exact hsub x (List.mem_cons_of_mem _ hx)
    have hlen := ih hnd' hsub'
    have herase := List.length_erase_of_mem hmem
    have hpos : 1 ≤ l'.length := List.length_pos.mpr (by rintro rfl; simp at hmem)
    simp only [List.length_cons]
    omega

/-- Under acyclicity and fully-resolvable `needs`, `visit` succeeds.  The
entry conditions: the name is a key; `temp_visited` is a duplicate-free set
of keys each of which transitively needs `name`; and the fuel exceeds the
number of keys not yet on the recursion path. -/
lemma visit_ok (jobs : List (String × Job)) (hAc : Acyclic jobs)
    (hDang : ∀ p ∈ jobs, ∀ d ∈ p.2.needs, d ∈ keysOf jobs) :
    ∀ (fuel : Nat) (name : String) (path : List String) (st : TopoSt),
      name ∈ keysOf jobs →
      TopoInv jobs st →
      st.temp_visited.Nodup →
      (∀ x ∈ st.temp_visited, x ∈ keysOf jobs) →
      (∀ x ∈ st.temp_visited, Relation.TransGen (edge jobs) x name) →
      (keysOf jobs).length - st.temp_visited.length < fuel →
      ∃ st', visit jobs fuel name path st = .ok st' := by
  intro fuel
  induction fuel with
  | zero =>
    intro name path st _ _ _ _ _ hfuel
    exact absurd hfuel (Nat.not_lt_zero _)
  | succ fuel ih =>
    intro name path st hk hInv hnd hsub hreach hfuel
    simp only [visit]
    by_cases htemp : name ∈ st.temp_visited
    · exact absurd (hreach name htemp) (hAc name)
    · rw [if_neg htemp]
      by_cases hvis : name ∈ st.visited
      · rw [if_pos hvis]; exact ⟨st, rfl⟩
      · rw [if_neg hvis]
        rcases hl : jobs.lookup name with _ | job
        · exact ⟨_, rfl⟩
        · have hInv1 : TopoInv jobs { st with temp_visited := name :: st.temp_visited } := by
            obtain ⟨h1, h2, h3, h4, h5⟩ := hInv
            refine ⟨h1, h2, h3, ?_, h5⟩
            intro a ha
            rcases List.mem_cons.mp ha with rfl | ha'
            · exact hvis
            · exact h4 a ha'
          have hlen1 : st.temp_visited.length + 1 ≤ (keysOf jobs).length := by
            have : (name :: st.temp_visited).Nodup := List.nodup_cons.mpr ⟨htemp, hnd⟩
            have := nodup_subset_length this (by
              intro x hx
              rcases List.mem_cons.mp hx with rfl | hx'
              · exact hk
              · exact hsub x hx')
            simpa using this
          have hdeps_ok : ∀ (deps : List String) (stc : TopoSt),
              (∀ d ∈ deps, d ∈ job.needs) →
              TopoInv jobs stc →
              stc.temp_visited = name :: st.temp_visited →
              ∃ st2, visitDeps (fun d s => visit jobs fuel d (path ++ [name]) s)
                  jobs deps stc = .ok st2 ∧
                stc.temp_visited = st2.temp_visited := by
            intro deps
            induction deps with
            | nil =>
              intro stc _ _ _
              exact ⟨stc, rfl, rfl⟩
            | cons dep deps ihd =>
              intro stc hsubdeps hInvc htc
              have hdn : dep ∈ job.needs := hsubdeps dep (List.mem_cons_self _ _)
              have hdk : dep ∈ keysOf jobs :=
                hDang (name, job) (lookup_mem hl) dep hdn
              have hed : edge jobs name dep := ⟨job, hl, hdn⟩
              have hreach' : ∀ x ∈ stc.temp_visited,
                  Relation.TransGen (edge jobs) x dep := by
                intro x hx
                rw [htc] at hx
                rcases List.mem_cons.mp hx with rfl | hx'
                · exact Relation.TransGen.single hed
                · exact (hreach x hx').tail hed
              have hnd' : stc.temp_visited.Nodup := by
                rw [htc]; exact List.nodup_cons.mpr ⟨htemp, hnd⟩
              have hsub' : ∀ x ∈ stc.temp_visited, x ∈ keysOf jobs := by
                rw [htc]
                intro x hx
                rcases List.mem_cons.mp hx with rfl | hx'
                · exact hk
                · exact hsub x hx'
              have hfuel' : (keysOf jobs).length - stc.temp_visited.length < fuel := by
                rw [htc]
                simp only [List.length_cons]
                omega
              obtain ⟨stm, hstm⟩ :=
                ih dep (path ++ [name]) stc hdk hInvc hnd' hsub' hreach' hfuel'
              obtain ⟨hInvm, htm, -, -⟩ :=
                visit_post jobs fuel dep (path ++ [name]) stc stm hstm hdk hInvc
              obtain ⟨st2, h2, ht2⟩ := ihd stm
                (fun d hd => hsubdeps d (List.mem_cons_of_mem _ hd))
                hInvm (by rw [htm, htc])
              refine ⟨st2, ?_, by rw [← ht2, htm]⟩
              simp only [visitDeps]
              rw [if_pos (lookup_isSome_of_mem_keys hdk), hstm]
              simpa [Except.bind] using h2
          obtain ⟨st2, h2, -⟩ := hdeps_ok job.needs
            { st with temp_visited := name :: st.temp_visited }
            (fun d hd => hd) hInv1 rfl
          refine ⟨visitFinish name st2, ?_⟩
          show (visitDeps (fun d s => visit jobs fuel d (path ++ [name]) s) jobs
              job.needs { st with temp_visited := name :: st.temp_visited }).map
            (visitFinish name) = Except.ok (visitFinish name st2)
          rw [h2]
          rfl

lemma topoFold_post (jobs : List (String × Job)) :
    ∀ (names : List String) (st st' : TopoSt),
      topoFold jobs names st = .ok st' →
      (∀ n ∈ names, n ∈ keysOf jobs) →
      TopoInv jobs st →
      TopoInv jobs st' ∧ (∃ new, st'.result = st.result ++ new) ∧
        ∀ n ∈ names, n ∈ st'.result := by
  intro names
  induction names with
  | nil =>
    intro st st' h _ hInv
    simp only [topoFold] at h
    cases h
    exact ⟨hInv, ⟨[], by simp⟩, by simp⟩
  | cons name names ih =>
    intro st st' h hks hInv
    simp only [topoFold] at h
    obtain ⟨stm, hv, h2⟩ := (exceptBind_eq_ok_iff _ _ _).mp h
    have hk : name ∈ keysOf jobs := hks name (List.mem_cons_self _ _)
    obtain ⟨hInvm, -, ⟨new1, hres1⟩, hnm⟩ :=
      visit_post jobs (jobs.length + 1) name [] st stm hv hk hInv
    obtain ⟨hInv', ⟨new2, hres2⟩, hall⟩ := ih stm st' h2
      (fun n hn => hks n (List.mem_cons_of_mem _ hn)) hInvm
    refine ⟨hInv', ⟨new1 ++ new2, by rw [hres2, hres1, List.append_assoc]⟩, ?_⟩
    intro n hn
    rcases List.mem_cons.mp hn with rfl | hn'
    · rw [hres2]; exact List.mem_append_left _ hnm
    · exact hall n hn'

lemma topoFold_ok (jobs : List (String × Job)) (hAc : Acyclic jobs)
    (hDang : ∀ p ∈ jobs, ∀ d ∈ p.2.needs, d ∈ keysOf jobs) :
    ∀ (names : List String) (st : TopoSt),
      (∀ n ∈ names, n ∈ keysOf jobs) →
      TopoInv jobs st →
      st.temp_visited = [] →
      ∃ st', topoFold jobs names st = .ok st' := by
  intro names
  induction names with
  | nil =>
    intro st _ _ _
    exact ⟨st, rfl⟩
  | cons name names ih =>
    intro st hks hInv htc
    have hk : name ∈ keysOf jobs := hks name (List.mem_cons_self _ _)
    obtain ⟨stm, hv⟩ := visit_ok jobs hAc hDang (jobs.length + 1) name [] st hk hInv
      (by rw [htc]; exact List.nodup_nil)
      (by rw [htc]; intro x hx; simp at hx)
      (by rw [htc]; intro x hx; simp at hx)
      (by
        have hlen : (keysOf jobs).length = jobs.length := List.length_map _ _
        rw [htc]
        simp only [List.length_nil, Nat.sub_zero]
        omega)
    obtain ⟨hInvm, htm, -, -⟩ :=
      visit_post jobs (jobs.length + 1) name [] st stm hv hk hInv
    obtain ⟨st', h'⟩ := ih stm (fun n hn => hks n (List.mem_cons_of_mem _ hn))
      hInvm (by rw [htm, htc])
    refine ⟨st', ?_⟩
    simp only [topoFold]
    rw [hv]
    simpa [Except.bind] using h'

/-- C2.  If the jobs' `needs` relation is acyclic and every `needs` entry
resolves to an existing job, `Executor::topological_sort` succeeds and
returns an order that contains every job exactly once and in which, for
every pair `(A, B)` with `B ∈ A.needs`, `B` appears strictly before `A`. -/
theorem C2_topological_sort (jobs : List (String × Job))
    (hDang : ∀ p ∈ jobs, ∀ d ∈ p.2.needs, d ∈ keysOf jobs)
    (hAc : Acyclic jobs) :
    ∃ order, topological_sort jobs = .ok order ∧
      order.Nodup ∧ (∀ k, k ∈ order ↔ k ∈ keysOf jobs) ∧
      ∀ A j, jobs.lookup A = some j → ∀ B ∈ j.needs,
        ∃ iB iA : Nat, iB < iA ∧ order[iB]? = some B ∧ order[iA]? = some A := by
  have hInv0 : TopoInv jobs ⟨[], [], []⟩ := by
    refine ⟨by simp, List.nodup_nil, by simp, by simp, ?_⟩
    intro i A hA
    simp at hA
  obtain ⟨stF, hF⟩ := topoFold_ok jobs hAc hDang (keysOf jobs) ⟨[], [], []⟩
    (fun n hn => hn) hInv0 rfl
  obtain ⟨⟨hkeys, hnodup, hiff, hdisj, hord⟩, -, hcomp⟩ :=
    topoFold_post jobs (keysOf jobs) ⟨[], [], []⟩ stF hF (fun n hn => hn) hInv0
  refine ⟨stF.result, ?_, hnodup, ?_, ?_⟩
  · simp only [topological_sort]
    rw [hF]
    rfl
  · exact fun k => ⟨fun hk => hkeys k hk, fun hk => hcomp k hk⟩
  · intro A j hA B hB
    have hAk : A ∈ keysOf jobs := mem_keys_of_lookup_some hA
    have hAr : A ∈ stF.result := hcomp A hAk
    obtain ⟨iA, hiA⟩ := List.mem_iff_getElem?.mp hAr
    have hBtake : B ∈ stF.result.take iA := hord iA A hiA j hA B hB
    obtain ⟨iB, hiB⟩ := List.mem_iff_getElem?.mp hBtake
    have hlt : iB < iA := by
      by_contra hge
      have hlen : (stF.result.take iA).length ≤ iA := by
        rw [List.length_take]
        exact min_le_left _ _
      have : (stF.result.take iA)[iB]? = none :=
        List.getElem?_eq_none (by omega)
      rw [this] at hiB
      exact Option.noConfusion hiB
    have hgetB : stF.result[iB]? = some B := by
      rw [← List.getElem?_take_of_lt hlt]
      exact hiB
    exact ⟨iB, iA, hlt, hgetB, hiA⟩

/-- The job pair used by the C2 witness: `deploy` needs `build`. -/
def jobNoDeps : Job :=
  { needs := [], condition := none, env := [], before := [], after := [],
    steps := [], continue_on_error := false }

def jobNeedsBuild : Job :=
  { needs := ["build"], condition := none, env := [], before := [], after := [],
    steps := [], continue_on_error := false }

def jobsPair : List (String × Job) :=
  [("deploy", jobNeedsBuild), ("build", jobNoDeps)]

lemma jobsPair_edge {x y : String} (h : edge jobsPair x y) :
    x = "deploy" ∧ y = "build" := by
  obtain ⟨j, hj, hy⟩ := h
  by_cases hx1 : x = "deploy"
  · subst hx1
    rw [show jobsPair.lookup "deploy" = some jobNeedsBuild from by decide] at hj
    cases hj
    simp only [jobNeedsBuild, List.mem_singleton] at hy
    exact ⟨rfl, hy⟩
  · by_cases hx2 : x = "build"
    · subst hx2
      rw [show jobsPair.lookup "build" = some jobNoDeps from by decide] at hj
      cases hj
      simp [jobNoDeps] at hy
    · rw [(lookup_eq_none_iff _ _).mpr (by simp [jobsPair, keysOf, hx1, hx2])] at hj
      exact Option.noConfusion hj

lemma jobsPair_acyclic : Acyclic jobsPair := by
  have hlast : ∀ x y, Relation.TransGen (edge jobsPair) x y → y = "build" := by
    intro x y h
    induction h with
    | single h1 => exact (jobsPair_edge h1).2
    | tail _ h2 _ => exact (jobsPair_edge h2).2
  have hfirst : ∀ x y, Relation.TransGen (edge jobsPair) x y → x = "deploy" := by
    intro x y h
    induction h with
    | single h1 => exact (jobsPair_edge h1).1
    | tail _ _ ih => exact ih
  intro a h
  have h1 := hlast _ _ h
  have h2 := hfirst _ _ h
  rw [h1] at h2
  exact absurd h2 (by decide)

/-- C2, witness: the theorem applied to the two-job workflow
`deploy.needs = [build]`. -/
theorem C2_topological_sort_witness :
    ∃ order, topological_sort jobsPair = .ok order ∧
      order.Nodup ∧ (∀ k, k ∈ order ↔ k ∈ keysOf jobsPair) ∧
      ∀ A j, jobsPair.lookup A = some j → ∀ B ∈ j.needs,
        ∃ iB iA : Nat, iB < iA ∧ order[iB]? = some B ∧ order[iA]? = some A :=
  C2_topological_sort jobsPair (by decide) jobsPair_acyclic

/-! ## Action parsing (src/src/workflow/action.rs) -/

inductive ActionCategory where
  | Page | Element | Assert | Wait | Browser | Network
  | Node | Ctx | Mock | Hook
  | Rs | Py | JavaCat | GoCat | WebCat
  | Fail | Clock | Bash
  deriving Repr, DecidableEq

/-- The category table of `ParsedAction::parse` (action.rs:146-176). -/
def categoryOf : String → Option ActionCategory
  | "page" => some .Page
  | "element" => some .Element
  | "assert" => some .Assert
  | "wait" => some .Wait
  | "browser" => some .Browser
  | "network" => some .Network
  | "node" => some .Node
  | "ctx" => some .Ctx
  | "mock" => some .Mock
  | "hook" => some .Hook
  | "rs" => some .Rs
  | "py" => some .Py
  | "java" => some .JavaCat
  | "go" => some .GoCat
  | "web" => some .WebCat
  | "fail" => some .Fail
  | "clock" => some .Clock
  | "bash" => some .Bash
  | _ => none

structure ParsedAction where
  category : ActionCategory
  action : String
  deriving Repr, DecidableEq

/-- `ParsedAction::parse` (action.rs:137): split on `/`, require exactly two
pieces, map the category.  The error payload carries the offending text. -/
def ParsedAction.parse (uses : String) : Except String ParsedAction :=
  match splitChar '/' uses with
  | [c, a] =>
    match categoryOf c with
    | some cat => .ok ⟨cat, a⟩
    | none => .error c
  | _ => .error uses

/-! ## Execution results (src/src/engine/result.rs)

`StepResult.response` (an HTTP payload) is omitted; `StepResult.error`
holds the structured error where the source stores `e.to_string()`. -/

structure StepResult where
  success : Bool
  outputs : List (String × String)
  error : Option ExecutorError
  deriving Repr, DecidableEq

structure JobResult where
  success : Bool
  outputs : List (String × String)
  steps : List StepResult
  deriving Repr, DecidableEq

structure WorkflowResult where
  success : Bool
  jobs : List (String × JobResult)
  run_id : String
  deriving Repr, DecidableEq

/-! ## The executor run loop (executor.rs:293-439 `run`,
executor.rs:443-620 `execute_job`)

Step dispatch is effectful (bridges, child processes, HTTP, shell, clock
broadcast), so it is abstracted as an oracle: given the phase (hook or main
step), the step and the current context, the oracle returns the
`Result<StepResult, ExecutorError>` the dispatch would produce.  The oracle
boundary covers executor.rs:508-551 (platform-agnostic dispatch, platform
resolution, bridge ensure, `execute_step`) and the corresponding part of
`execute_hook_step`.  The clock auto-advance after main steps
(executor.rs:553-558) mutates only the mock clock, which is modelled
separately above and touched by no claim about the run loop, so it is
elided here.  Everything else — condition evaluation, output persistence,
`continue_on_error` policy, dependency gating, result recording — is
embedded directly. -/

inductive DispatchPhase where
  | hook
  | main
  deriving Repr, DecidableEq

/-- The dispatch oracle: the observable outcome of one step dispatch. -/
def DispatchOracle : Type :=
  DispatchPhase → Step → ExecutionContext → Except ExecutorError StepResult

/-- Insert into an association map (most recent binding wins on lookup). -/
def insertKV {β : Type} (l : List (String × β)) (k : String) (v : β) :
    List (String × β) :=
  (k, v) :: l

/-- `for (key, value) in src { dst.insert(key, value) }`. -/
def mergeEnv (dst src : List (String × String)) : List (String × String) :=
  src.foldl (fun acc kv => insertKV acc kv.1 kv.2) dst

/-- A hook list (`before`/`after`): dispatch each step, returning the first
`Err` (the caller decides whether that aborts); an `Ok` result is ignored
even when its `success` flag is false (executor.rs:340, 472, 603 check only
`if let Err`).  Hook dispatch never writes to the context. -/
def runHooks (disp : DispatchOracle) : List Step → ExecutionContext →
    Option ExecutorError
  | [], _ => none
  | s :: rest, ctx =>
    match disp .hook s ctx with
    | .error e => some e
    | .ok _ => runHooks disp rest ctx

structure StepLoopSt where
  ctx : ExecutionContext
  step_results : List StepResult
  all_success : Bool
  deriving Repr, DecidableEq

/-- The main-step loop of `execute_job` (executor.rs:485-594).  Per step:
evaluate the `if` condition (an evaluation error aborts the whole job with
`Err`, the `?` at executor.rs:493); set `current_step` when the step has an
id; parse `uses` (`Err` aborts the job, executor.rs:504); dispatch through
the oracle; on `Ok` persist outputs under the step id (even when the step
reports failure); on failure or `Err` record a failed step result and stop
the loop unless step- or job-level `continue_on_error` is set.  Returns the
final context alongside the outcome so that mutations made before an error
persist, as they do through `&mut self` in the source. -/
def runSteps (disp : DispatchOracle) (job : Job) :
    List Step → StepLoopSt → StepLoopSt × Option ExecutorError
  | [], st => (st, none)
  | step :: rest, st =>
    let afterCond : Bool ⊕ ExpressionError :=
      match step.condition with
      | none => .inl true
      | some c =>
        match evaluate_condition c st.ctx with
        | .ok b => .inl b
        | .error e => .inr e
    match afterCond with
    | .inr e => (st, some (.ExpressionError e))
    | .inl false => runSteps disp job rest st
    | .inl true =>
      let ctx1 :=
        match step.id with
        | some sid => { st.ctx with current_step := some sid }
        | none => st.ctx
      match ParsedAction.parse step.uses with
      | .error e => ({ st with ctx := ctx1 }, some (.UnknownAction e))
      | .ok _action =>
        match disp .main step ctx1 with
        | .ok sr =>
          let ctx2 :=
            match step.id with
            | some sid =>
              sr.outputs.foldl (fun c kv => c.set_output sid kv.1 kv.2) ctx1
            | none => ctx1
          if sr.success then
            runSteps disp job rest
              { ctx := ctx2, step_results := st.step_results ++ [sr],
                all_success := st.all_success }
          else if !step.continue_on_error && !job.continue_on_error then
            ({ ctx := ctx2, step_results := st.step_results ++ [sr],
               all_success := false }, none)
          else
            runSteps disp job rest
              { ctx := ctx2, step_results := st.step_results ++ [sr],
                all_success := false }
        | .error e =>
          let sr : StepResult := ⟨false, [], some e⟩
          if !step.continue_on_error && !job.continue_on_error then
            ({ ctx := ctx1, step_results := st.step_results ++ [sr],
               all_success := false }, none)
          else
            runSteps disp job rest
              { ctx := ctx1, step_results := st.step_results ++ [sr],
                all_success := false }

/-- `Executor::execute_job` (executor.rs:443-620): merge the job env, run
the before hooks (an `Err` aborts the job as `Ok { success: false }`), run
the main steps, run the after hooks (outcome ignored).  The returned
`JobResult.outputs` is the local `job_outputs` map, which is created empty
at executor.rs:462 and never written — every job completes with an empty
outputs map. -/
def execute_job (disp : DispatchOracle) (job : Job) (ctx : ExecutionContext) :
    ExecutionContext × Except ExecutorError JobResult :=
  let ctx1 := { ctx with env := mergeEnv ctx.env job.env }
  match runHooks disp job.before ctx1 with
  | some _e => (ctx1, .ok ⟨false, [], []⟩)
  | none =>
    match runSteps disp job job.steps ⟨ctx1, [], true⟩ with
    | (st, some e) => (st.ctx, .error e)
    | (st, none) =>
      let _after := runHooks disp job.after st.ctx
      (st.ctx, .ok ⟨st.all_success, [], st.step_results⟩)

/-- Map `topological_sort`'s failure into `ExecutorError`
(executor.rs:353 `?`).  `fuelExhausted` is an artefact of the fuelled
embedding, unreachable for the fuel `topological_sort` supplies; it is
mapped to an empty-path `CircularDependency` merely to make the function
total. -/
def TopoFail.toExecutorError : TopoFail → ExecutorError
  | .JobNotFound n => .JobNotFound n
  | .CircularDependency p => .CircularDependency p
  | .fuelExhausted => .CircularDependency []

structure RunSt where
  ctx : ExecutionContext
  results : List (String × JobResult)
  all_success : Bool
  deriving Repr, DecidableEq

/-- The job loop of `Executor::run` (executor.rs:357-418).  Per job name in
topological order: look it up (the source `unwrap`s; the `JobNotFound`
error here is unreachable because the order only contains keys); record a
failed result without running anything when a dependency's recorded result
is missing or failed and the job does not have `continue_on_error`
(executor.rs:360-378); otherwise evaluate the `if` condition (false skips
silently, recording nothing; an evaluation error aborts the run via the `?`
at executor.rs:382); otherwise execute the job, record its result (or a
failed result if it returned `Err`) and publish its outputs into
`ctx.jobs`. -/
def runJobs (disp : DispatchOracle) (jobs : List (String × Job)) :
    List String → RunSt → Except ExecutorError RunSt
  | [], st => .ok st
  | job_name :: rest, st =>
    match jobs.lookup job_name with
    | none => .error (.JobNotFound job_name)
    | some job =>
      let deps_ok := job.needs.all
        (fun dep => ((st.results.lookup dep).map JobResult.success).getD false)
      if !deps_ok && !job.continue_on_error then
        runJobs disp jobs rest
          { st with results := insertKV st.results job_name ⟨false, [], []⟩,
                    all_success := false }
      else
        let condVal : Bool ⊕ ExpressionError :=
          match job.condition with
          | none => .inl true
          | some c =>
            match evaluate_condition c st.ctx with
            | .ok b => .inl b
            | .error e => .inr e
        match condVal with
        | .inr e => .error (.ExpressionError e)
        | .inl false => runJobs disp jobs rest st
        | .inl true =>
          let ctx0 := { st.ctx with current_job := some job_name }
          match execute_job disp job ctx0 with
          | (ctx', .ok result) =>
            runJobs disp jobs rest
              { ctx := { ctx' with jobs := insertKV ctx'.jobs job_name result.outputs }
                results := insertKV st.results job_name result
                all_success := st.all_success && result.success }
          | (ctx', .error _e) =>
            runJobs disp jobs rest
              { ctx := ctx'
                results := insertKV st.results job_name ⟨false, [], []⟩
                all_success := false }

/-- `Executor::run` (executor.rs:293-439): merge the workflow env, run the
workflow before hooks (a hook `Err` returns `success: false` with no job
results), topologically sort the jobs, run the job loop, run the after
hooks (ignored), and return the result together with the final context
(which lives in the executor in the source).  Platform-config storing and
state-manager initialisation (executor.rs:299-323) only feed the abstracted
dispatch and are elided. -/
def Executor.run (disp : DispatchOracle) (wf : Workflow)
    (ctx0 : ExecutionContext) :
    Except ExecutorError (WorkflowResult × ExecutionContext) :=
  let ctx1 := { ctx0 with env := mergeEnv ctx0.env wf.env }
  match runHooks disp wf.before ctx1 with
  | some _e => .ok (⟨false, [], ctx1.run_id⟩, ctx1)
  | none =>
    match topological_sort wf.jobs with
    | .error tf => .error tf.toExecutorError
    | .ok order =>
      match runJobs disp wf.jobs order ⟨ctx1, [], true⟩ with
      | .error e => .error e
      | .ok st =>
        let _after := runHooks disp wf.after st.ctx
        .ok (⟨st.all_success, st.results, st.ctx.run_id⟩, st.ctx)

/-! ### C1: job outputs are never populated -/

/-- C1 demonstration workflow: job `A` has one step with id `s1` that
produces an output `token`; job `K` needs `A`. -/
def jobA_C1 : Job :=
  { needs := [], condition := none, env := [], before := [], after := [],
    steps := [{ uses := "node/call", condition := none, id := some "s1",
                continue_on_error := false }],
    continue_on_error := false }

def jobK_C1 : Job :=
  { needs := ["A"], condition := none, env := [], before := [], after := [],
    steps := [], continue_on_error := false }

def wfC1 : Workflow :=
  { env := [], before := [], after := [],
    jobs := [("A", jobA_C1), ("K", jobK_C1)] }

/-- A dispatch oracle under which every step succeeds and yields the output
`token = v`. -/
def dispC1 : DispatchOracle := fun _ _ _ => .ok ⟨true, [("token", "v")], none⟩

def ctx0C1 : ExecutionContext :=
  { env := [], secrets := [], steps := [], jobs := [], current_job := none,
    current_step := none, run_id := "r" }

/-- C1: code bug, demonstrated at the failing input.  Job `A` completes
successfully and its step demonstrably produced an output (it is in
`ctx.steps["s1"]`), yet the outputs recorded for `A` in
`ExecutionContext.jobs` are EMPTY — `execute_job`'s `job_outputs` map
(executor.rs:462) is created empty and never written, and `run` copies that
empty map into `ctx.jobs` (executor.rs:400-402) — so the expression
`jobs.A.outputs.token`, evaluated where job `K` (which needs `A`) would
evaluate it, fails with `UnknownVariable` instead of returning the output
value as the claim (and spec §5 «Job outputs of job A are observable to any
job that lists A in `needs`») requires. -/
theorem C1_job_outputs_never_populated :
    ∃ res ctxF, Executor.run dispC1 wfC1 ctx0C1 = .ok (res, ctxF) ∧
      (res.jobs.lookup "A").map JobResult.success = some true ∧
      (res.jobs.lookup "K").map JobResult.success = some true ∧
      ctxF.steps.lookup "s1" = some [("token", "v")] ∧
      ctxF.jobs.lookup "A" = some [] ∧
      evaluate_single "jobs.A.outputs.token" ctxF
        = .error (.UnknownVariable "jobs.A.outputs.token") := by
  refine ⟨_, _, rfl, ?_, ?_, ?_, ?_, ?_⟩ <;> decide

/-! ### C10: a condition-skipped job fails its dependents -/

lemma lookup_append_of_not_mem_keys {β : Type} {l1 : List (String × β)}
    (l2 : List (String × β)) {k : String} (h : k ∉ l1.map Prod.fst) :
    (l1 ++ l2).lookup k = l2.lookup k := by
  induction l1 with
  | nil => rfl
  | cons p l1 ih =>
    obtain ⟨k', v⟩ := p
    have hk' : k ≠ k' := by
      intro he
      exact h (by simp [he])
    rw [List.cons_append, List.lookup_cons]
    simp only [beq_eq_false_iff_ne.mpr hk']
    exact ih (fun hm => h (by simp [hm]))

/-- A successful `runJobs` only prepends entries, and every prepended key is
one of the processed names. -/
lemma runJobs_results_suffix (disp : DispatchOracle) (jobs : List (String × Job)) :
    ∀ (order : List String) (st stF : RunSt),
      runJobs disp jobs order st = .ok stF →
      ∃ new, stF.results = new ++ st.results ∧
        ∀ k ∈ new.map Prod.fst, k ∈ order := by
  intro order
  induction order with
  | nil =>
    intro st stF h
    simp only [runJobs] at h
    cases h
    exact ⟨[], rfl, by simp⟩
  | cons name rest ih =>
    intro st stF h
    simp only [runJobs] at h
    rcases hl : jobs.lookup name with _ | job
    · rw [hl] at h; exact absurd h (by simp)
    · rw [hl] at h
      simp only at h
      split at h
      · obtain ⟨new, hres, hkeys⟩ := ih _ _ h
        refine ⟨new ++ [(name, ⟨false, [], []⟩)], by
          rw [hres]; simp [insertKV], ?_⟩
        intro k hk
        simp only [List.map_append, List.mem_append] at hk
        rcases hk with hk | hk
        · exact List.mem_cons_of_mem _ (hkeys k hk)
        · simp at hk
          simp [hk]
      · split at h
        · exact absurd h (by simp)
        · obtain ⟨new, hres, hkeys⟩ := ih _ _ h
          exact ⟨new, hres, fun k hk => List.mem_cons_of_mem _ (hkeys k hk)⟩
        · split at h
          · rename_i ctx' result heq
            obtain ⟨new, hres, hkeys⟩ := ih _ _ h
            refine ⟨new ++ [(name, result)], by rw [hres]; simp [insertKV], ?_⟩
            intro k hk
            simp only [List.map_append, List.mem_append] at hk
            rcases hk with hk | hk
            · exact List.mem_cons_of_mem _ (hkeys k hk)
            · simp at hk
              simp [hk]
          · obtain ⟨new, hres, hkeys⟩ := ih _ _ h
            refine ⟨new ++ [(name, ⟨false, [], []⟩)], by
              rw [hres]; simp [insertKV], ?_⟩
            intro k hk
            simp only [List.map_append, List.mem_append] at hk
            rcases hk with hk | hk
            · exact List.mem_cons_of_mem _ (hkeys k hk)
            · simp at hk
              simp [hk]

/-- Once `all_success` is false it stays false. -/
lemma runJobs_false_mono (disp : DispatchOracle) (jobs : List (String × Job)) :
    ∀ (order : List String) (st stF : RunSt),
      runJobs disp jobs order st = .ok stF →
      st.all_success = false → stF.all_success = false := by
  intro order
  induction order with
  | nil =>
    intro st stF h hfalse
    simp only [runJobs] at h
    cases h
    exact hfalse
  | cons name rest ih =>
    intro st stF h hfalse
    simp only [runJobs] at h
    rcases hl : jobs.lookup name with _ | job
    · rw [hl] at h; exact absurd h (by simp)
    · rw [hl] at h
      simp only at h
      split at h
      · exact ih _ _ h rfl
      · split at h
        · exact absurd h (by simp)
        · exact ih _ _ h hfalse
        · split at h
          · exact ih _ _ h (by simp [hfalse])
          · exact ih _ _ h rfl

/-- The core of C10: along a successful, duplicate-free job loop, if `K`
(not yet recorded) needs `J`, `K` does not continue on error, and `J` ends
the run with no recorded result, then `K` is recorded as a failure with no
steps and the loop ends unsuccessful. -/
lemma runJobs_dep_missing (disp : DispatchOracle) (jobs : List (String × Job))
    (J K : String) (jK : Job) (hK : jobs.lookup K = some jK)
    (hJK : J ∈ jK.needs) (hcoe : jK.continue_on_error = false) :
    ∀ (order : List String) (st stF : RunSt),
      runJobs disp jobs order st = .ok stF →
      order.Nodup →
      K ∈ order →
      st.results.lookup K = none →
      stF.results.lookup J = none →
      stF.results.lookup K = some ⟨false, [], []⟩ ∧ stF.all_success = false := by
  intro order
  induction order with
  | nil =>
    intro st stF _ _ hKo
    simp at hKo
  | cons name rest ih =>
    intro st stF h hnd hKo hKnone hJnone
    have hJst : st.results.lookup J = none := by
      obtain ⟨new, hres, -⟩ := runJobs_results_suffix disp jobs _ _ _ h
      rw [lookup_eq_none_iff] at hJnone ⊢
      intro hmem
      exact hJnone (by rw [hres]; simp [hmem])
    simp only [runJobs] at h
    by_cases hname : name = K
    · subst hname
      rw [hK] at h
      simp only at h
      have hdep : (jK.needs.all
          (fun dep => ((st.results.lookup dep).map JobResult.success).getD false)) = false := by
        rw [List.all_eq_false]
        exact ⟨J, hJK, by simp [hJst]⟩
      rw [hdep, hcoe] at h
      simp only [Bool.not_false, Bool.and_self, if_true] at h
      obtain ⟨new, hres, hkeys⟩ := runJobs_results_suffix disp jobs _ _ _ h
      have hKnotnew : name ∉ new.map Prod.fst := by
        intro hmem
        exact (List.nodup_cons.mp hnd).1 (hkeys name hmem)
      constructor
      · rw [hres, lookup_append_of_not_mem_keys _ hKnotnew]
        simp [insertKV, List.lookup_cons]
      · exact runJobs_false_mono disp jobs _ _ _ h rfl
    · have hKrest : K ∈ rest := by
        rcases List.mem_cons.mp hKo with he | hm
        · exact absurd he.symm hname
        · exact hm
      have hnd' : rest.Nodup := (List.nodup_cons.mp hnd).2
      rcases hl : jobs.lookup name with _ | job
      · rw [hl] at h; exact absurd h (by simp)
      · rw [hl] at h
        simp only at h
        have hKn : ∀ (r : JobResult),
            (insertKV st.results name r).lookup K = none := by
          intro r
          simp only [insertKV, List.lookup_cons,
            beq_eq_false_iff_ne.mpr (fun he => hname he.symm)]
          exact hKnone
        split at h
        · exact ih _ _ h hnd' hKrest (hKn _) hJnone
        · split at h
          · exact absurd h (by simp)
          · exact ih _ _ h hnd' hKrest hKnone hJnone
          · split at h
            · exact ih _ _ h hnd' hKrest (hKn _) hJnone
            · exact ih _ _ h hnd' hKrest (hKn _) hJnone

/-- Success postconditions of `topological_sort` needed by C10: the order
is duplicate-free and contains every key. -/
lemma topological_sort_post (jobs : List (String × Job)) (order : List String)
    (h : topological_sort jobs = .ok order) :
    order.Nodup ∧ ∀ k ∈ keysOf jobs, k ∈ order := by
  simp only [topological_sort] at h
  obtain ⟨stF, hF, hres⟩ := (exceptMap_eq_ok_iff _ _ _).mp h
  have hInv0 : TopoInv jobs ⟨[], [], []⟩ := by
    refine ⟨by simp, List.nodup_nil, by simp, by simp, ?_⟩
    intro i A hA
    simp at hA
  obtain ⟨⟨-, hnodup, -, -, -⟩, -, hcomp⟩ :=
    topoFold_post jobs (keysOf jobs) ⟨[], [], []⟩ stF hF (fun n hn => hn) hInv0
  subst hres
  exact ⟨hnodup, hcomp⟩

/-- C10.  If the run completes with at least one recorded job result (which
rules out the workflow-before-hook abort, the only completing path that
records nothing) and no result was recorded for `J` — on the code this
happens exactly when `J`'s `if` condition evaluated false, the silent-skip
path at executor.rs:380-386 — then every job `K` that lists `J` in `needs`
and does not have `continue_on_error` is recorded as
`{ success: false, no outputs, no steps }` without executing, and the
workflow's overall success is false. -/
theorem C10_condition_skip_fails_dependents (disp : DispatchOracle)
    (wf : Workflow) (ctx0 : ExecutionContext) (res : WorkflowResult)
    (ctxF : ExecutionContext) (J K : String) (jK : Job)
    (hrun : Executor.run disp wf ctx0 = .ok (res, ctxF))
    (hsome : res.jobs ≠ [])
    (hK : wf.jobs.lookup K = some jK)
    (hJK : J ∈ jK.needs)
    (hcoe : jK.continue_on_error = false)
    (hJnone : res.jobs.lookup J = none) :
    res.jobs.lookup K = some ⟨false, [], []⟩ ∧ res.success = false := by
  simp only [Executor.run] at hrun
  rcases hh : runHooks disp wf.before
      { ctx0 with env := mergeEnv ctx0.env wf.env } with _ | e
  swap
  · rw [hh] at hrun
    simp only at hrun
    cases hrun
    exact absurd rfl hsome
  · rw [hh] at hrun
    simp only at hrun
    rcases ht : topological_sort wf.jobs with e | order
    · rw [ht] at hrun; exact absurd hrun (by simp)
    · rw [ht] at hrun
      simp only at hrun
      rcases hr : runJobs disp wf.jobs order
          { ctx := { ctx0 with env := mergeEnv ctx0.env wf.env },
            results := [], all_success := true } with e | st
      · rw [hr] at hrun; exact absurd hrun (by simp)
      · rw [hr] at hrun
        simp only at hrun
        cases hrun
        obtain ⟨hnodup, hcomp⟩ := topological_sort_post wf.jobs order ht
        have hKo : K ∈ order := hcomp K (mem_keys_of_lookup_some hK)
        exact runJobs_dep_missing disp wf.jobs J K jK hK hJK hcoe order _ st hr
          hnodup hKo rfl hJnone

/-- C10 witness workflow: `J`'s condition is the literal `false` (so it is
skipped silently with no recorded result); `K` needs `J`. -/
def jobJ_C10 : Job :=
  { needs := [], condition := some "false", env := [], before := [], after := [],
    steps := [], continue_on_error := false }

def jobK_C10 : Job :=
  { needs := ["J"], condition := none, env := [], before := [], after := [],
    steps := [], continue_on_error := false }

def wfC10 : Workflow :=
  { env := [], before := [], after := [],
    jobs := [("J", jobJ_C10), ("K", jobK_C10)] }

/-- C10, witness: the theorem applied to the concrete run of `wfC10` under
the always-succeeding oracle. -/
theorem C10_condition_skip_fails_dependents_witness :
    ∃ res ctxF, Executor.run dispC1 wfC10 ctx0C1 = .ok (res, ctxF) ∧
      res.jobs.lookup "K" = some ⟨false, [], []⟩ ∧ res.success = false := by
  refine ⟨_, _, rfl, ?_⟩
  exact C10_condition_skip_fails_dependents dispC1 wfC10 ctx0C1 _ _ "J" "K"
    jobK_C10 rfl (by decide) (by decide) (by decide) (by decide) (by decide)

/-! ## Directory scheduler (src/src/engine/directory_runner.rs)

`run_dag` (directory_runner.rs:230-444) runs workflows concurrently:
dispatch passes move `pending` names either into `skipped` or into flight,
and completing workflows record a `WorkflowResult` and set the `failed`
flag when unsuccessful.  The concurrency is embedded as a small-step
transition relation over the scheduler state; one transition corresponds to
one decision of a dispatch pass (directory_runner.rs:320-334) or one
workflow completion (directory_runner.rs:360-380).  Workflow results are
reduced to their `success` flag, the only field the scheduler reads.  The
workflow payloads of DAG nodes are likewise omitted. -/

structure DagNode where
  dependencies : List String
  always : Bool
  deriving Repr, DecidableEq

inductive RunStatus where
  | Ready
  | Waiting
  | Skip
  deriving Repr, DecidableEq

/-- `check_status` (directory_runner.rs:254-297): an unknown name is
`Skip`; no dependencies is `Ready`; otherwise fold over the dependencies
computing `(all_deps_done, any_dep_failed_or_skipped)` exactly as the
source loop does, then decide. -/
def check_status (dag : List (String × DagNode)) (name : String)
    (results : List (String × Bool)) (skippedSet : List String) : RunStatus :=
  match dag.lookup name with
  | none => .Skip
  | some node =>
    if node.dependencies.isEmpty then .Ready
    else
      let folded := node.dependencies.foldl
        (fun (acc : Bool × Bool) dep =>
          if dep ∈ skippedSet then (acc.1, true)
          else
            match results.lookup dep with
            | some r => if !r then (acc.1, true) else acc
            | none => (false, acc.2))
        (true, false)
      if !folded.1 then .Waiting
      else if folded.2 then (if node.always then .Ready else .Skip)
      else .Ready

structure SchedSt where
  pending : List String
  running : List String
  results : List (String × Bool)
  skipped : List String
  failed : Bool
  deriving Repr, DecidableEq

/-- `is_always` as the dispatch pass computes it (directory_runner.rs:322):
`dag.get_node(name).map(|n| n.always).unwrap_or(false)`. -/
def isAlways (dag : List (String × DagNode)) (name : String) : Bool :=
  ((dag.lookup name).map DagNode.always).getD false

/-- One atomic scheduler decision (dispatch-pass entry or completion). -/
inductive SchedStep (dag : List (String × DagNode)) (fail_fast : Bool) :
    SchedSt → SchedSt → Prop
  /-- fail-fast pre-skip (directory_runner.rs:324-327). -/
  | skipFF (name : String) (st : SchedSt) :
      name ∈ st.pending → fail_fast = true → st.failed = true →
      isAlways dag name = false →
      SchedStep dag fail_fast st
        { st with pending := st.pending.erase name,
                  skipped := st.skipped ++ [name] }
  /-- `check_status` said `Skip` (directory_runner.rs:332, 337-350). -/
  | skipStatus (name : String) (st : SchedSt) :
      name ∈ st.pending →
      ¬(fail_fast = true ∧ st.failed = true ∧ isAlways dag name = false) →
      check_status dag name st.results st.skipped = .Skip →
      SchedStep dag fail_fast st
        { st with pending := st.pending.erase name,
                  skipped := st.skipped ++ [name] }
  /-- `check_status` said `Ready`: start the workflow
  (directory_runner.rs:330, 352-381). -/
  | dispatch (name : String) (st : SchedSt) :
      name ∈ st.pending →
      ¬(fail_fast = true ∧ st.failed = true ∧ isAlways dag name = false) →
      check_status dag name st.results st.skipped = .Ready →
      SchedStep dag fail_fast st
        { st with pending := st.pending.erase name,
                  running := name :: st.running }
  /-- A running workflow finishes with success flag `b`; record the result
  and raise `failed` on failure (directory_runner.rs:365-379). -/
  | complete (name : String) (b : Bool) (st : SchedSt) :
      name ∈ st.running →
      SchedStep dag fail_fast st
        { st with running := st.running.erase name,
                  results := (name, b) :: st.results,
                  failed := st.failed || !b }

/-- The initial scheduler state (directory_runner.rs:231-244): everything
pending, nothing recorded. -/
def schedInit (dag : List (String × DagNode)) : SchedSt :=
  { pending := dag.map Prod.fst, running := [], results := [], skipped := [],
    failed := false }

/-- The overall success flag as `run_dag` computes it
(directory_runner.rs:436): the conjunction of the recorded results'
success flags — with NO reference to the skipped list. -/
def dirSuccess (st : SchedSt) : Bool :=
  st.results.all (fun e => e.2)

/-- The scheduler invariant: a raised `failed` flag, and every skipped
entry, is backed by a recorded failing result; and pending names are DAG
keys. -/
def SchedInv (dag : List (String × DagNode)) (st : SchedSt) : Prop :=
  (st.failed = true → ∃ e ∈ st.results, e.2 = false) ∧
  (∀ s ∈ st.skipped, ∃ e ∈ st.results, e.2 = false) ∧
  (∀ n ∈ st.pending, n ∈ dag.map Prod.fst)

/-- The `any_dep_failed_or_skipped` component of `check_status`'s fold:
true exactly when it started true or some dependency is in the skipped set
or has a recorded failing result. -/
lemma check_fold_snd (results : List (String × Bool)) (skippedSet : List String) :
    ∀ (deps : List String) (acc : Bool × Bool),
      (deps.foldl
        (fun (acc : Bool × Bool) dep =>
          if dep ∈ skippedSet then (acc.1, true)
          else
            match results.lookup dep with
            | some r => if !r then (acc.1, true) else acc
            | none => (false, acc.2))
        acc).2 = true ↔
      acc.2 = true ∨ ∃ dep ∈ deps, dep ∈ skippedSet ∨ results.lookup dep = some false := by
  intro deps
  induction deps with
  | nil => intro acc; simp
  | cons dep deps ih =>
    intro acc
    simp only [List.foldl_cons]
    rw [ih]
    by_cases hsk : dep ∈ skippedSet
    · simp only [if_pos hsk]
      constructor
      · intro _
        exact Or.inr ⟨dep, List.mem_cons_self _ _, Or.inl hsk⟩
      · intro _
        exact Or.inl trivial
    · simp only [if_neg hsk]
      rcases hr : results.lookup dep with _ | r
      · constructor
        · rintro (h | ⟨d, hd, hc⟩)
          · exact Or.inl h
          · exact Or.inr ⟨d, List.mem_cons_of_mem _ hd, hc⟩
        · rintro (h | ⟨d, hd, hc⟩)
          · exact Or.inl h
          · rcases List.mem_cons.mp hd with rfl | hd'
            · rcases hc with hc | hc
              · exact absurd hc hsk
              · rw [hr] at hc
                exact absurd hc (by simp)
            · exact Or.inr ⟨d, hd', hc⟩
      · cases r with
        | true =>
          constructor
          · rintro (h | ⟨d, hd, hc⟩)
            · exact Or.inl h
            · exact Or.inr ⟨d, List.mem_cons_of_mem _ hd, hc⟩
          · rintro (h | ⟨d, hd, hc⟩)
            · exact Or.inl h
            · rcases List.mem_cons.mp hd with rfl | hd'
              · rcases hc with hc | hc
                · exact absurd hc hsk
                · rw [hr] at hc
                  exact absurd hc (by simp)
              · exact Or.inr ⟨d, hd', hc⟩
        | false =>
          constructor
          · intro _
            exact Or.inr ⟨dep, List.mem_cons_self _ _, Or.inr hr⟩
          · intro _
            exact Or.inl rfl

/-- A `Skip` verdict for a known name implies some dependency is skipped or
recorded as failed. -/
lemma check_status_skip {dag : List (String × DagNode)} {name : String}
    {results : List (String × Bool)} {skippedSet : List String}
    (hmem : name ∈ dag.map Prod.fst)
    (h : check_status dag name results skippedSet = .Skip) :
    ∃ dep, dep ∈ skippedSet ∨ results.lookup dep = some false := by
  rcases hl : dag.lookup name with _ | node
  · exact absurd hmem ((lookup_eq_none_iff dag name).mp hl)
  · rw [check_status, hl] at h
    simp only at h
    by_cases hdeps : node.dependencies.isEmpty
    · rw [if_pos hdeps] at h
      exact absurd h (by simp)
    · rw [if_neg hdeps] at h
      split at h
      · exact absurd h (by simp)
      · split at h
        · rename_i hsnd
          obtain (habs | ⟨dep, -, hc⟩) :=
            (check_fold_snd results skippedSet node.dependencies (true, false)).mp hsnd
          · exact absurd habs (by simp)
          · exact ⟨dep, hc⟩
        · exact absurd h (by simp)

/-- One scheduler step preserves the invariant. -/
lemma schedStep_inv {dag : List (String × DagNode)} {fail_fast : Bool}
    {st st' : SchedSt} (h : SchedStep dag fail_fast st st')
    (hInv : SchedInv dag st) : SchedInv dag st' := by
  obtain ⟨hfail, hskip, hpend⟩ := hInv
  cases h with
  | skipFF name st hp hff hfailed halw =>
    refine ⟨hfail, ?_, ?_⟩
    · intro s hs
      rcases List.mem_append.mp hs with hs | hs
      · exact hskip s hs
      · exact hfail hfailed
    · intro n hn
      exact hpend n (List.mem_of_mem_erase hn)
  | skipStatus name st hp hguard hcs =>
    refine ⟨hfail, ?_, ?_⟩
    · intro s hs
      rcases List.mem_append.mp hs with hs | hs
      · exact hskip s hs
      · obtain ⟨dep, hdep | hdep⟩ := check_status_skip (hpend name hp) hcs
        · exact hskip dep hdep
        · exact ⟨(dep, false), lookup_mem hdep, rfl⟩
    · intro n hn
      exact hpend n (List.mem_of_mem_erase hn)
  | dispatch name st hp hguard hcs =>
    exact ⟨hfail, hskip, fun n hn => hpend n (List.mem_of_mem_erase hn)⟩
  | complete name b st hr =>
    refine ⟨?_, ?_, hpend⟩
    · intro hfailed
      simp only [Bool.or_eq_true] at hfailed
      rcases hfailed with hfailed | hb
      · obtain ⟨e, he, hef⟩ := hfail hfailed
        exact ⟨e, List.mem_cons_of_mem _ he, hef⟩
      · refine ⟨(name, b), List.mem_cons_self _ _, ?_⟩
        simpa using hb
    · intro s hs
      obtain ⟨e, he, hef⟩ := hskip s hs
      exact ⟨e, List.mem_cons_of_mem _ he, hef⟩

/-- The invariant holds in every reachable scheduler state. -/
lemma schedReach_inv {dag : List (String × DagNode)} {fail_fast : Bool}
    {st : SchedSt}
    (h : Relation.ReflTransGen (SchedStep dag fail_fast) (schedInit dag) st) :
    SchedInv dag st := by
  induction h with
  | refl =>
    refine ⟨by simp [schedInit], by simp [schedInit], ?_⟩
    intro n hn
    simpa [schedInit] using hn
  | tail _ hstep ih => exact schedStep_inv hstep ih

/-- C3.  In every reachable scheduler state — in particular every completed
run (`pending` and `running` empty) — the overall success flag that
`run_dag` computes (the conjunction of the recorded results' success
flags, directory_runner.rs:436) EQUALS the conjunction of all recorded
successes AND the skipped list being empty: although the code never
consults `skipped`, anything ever skipped traces back (through skip
cascades and fail-fast) to a recorded failing result, so a non-empty
skipped list forces the success flag false. -/
theorem C3_directory_success_conjunction (dag : List (String × DagNode))
    (fail_fast : Bool) (st : SchedSt)
    (hreach : Relation.ReflTransGen (SchedStep dag fail_fast) (schedInit dag) st)
    (hdone : st.pending = [] ∧ st.running = []) :
    dirSuccess st = (st.results.all (fun e => e.2) && st.skipped.isEmpty) := by
  rcases hsk : st.skipped with _ | ⟨s, rest⟩
  · simp [dirSuccess]
  · obtain ⟨-, hskip, -⟩ := schedReach_inv hreach
    obtain ⟨e, he, hef⟩ := hskip s (by rw [hsk]; exact List.mem_cons_self _ _)
    have hall : st.results.all (fun e => e.2) = false := by
      rw [List.all_eq_false]
      exact ⟨e, he, by simp [hef]⟩
    simp [dirSuccess, hall]

/-- The one-node DAG used by the C3 witness. -/
def dagA : List (String × DagNode) := [("a", ⟨[], false⟩)]

/-- C3, witness: a concrete completed run of the one-workflow DAG (dispatch
`a`, complete it successfully), at which the theorem's equality holds. -/
theorem C3_directory_success_conjunction_witness :
    dirSuccess { pending := [], running := [], results := [("a", true)],
                 skipped := [], failed := false } =
      (List.all [("a", true)] (fun e => e.2) && List.isEmpty ([] : List String)) := by
  have h1 : SchedStep dagA false (schedInit dagA)
      { pending := [], running := ["a"], results := [], skipped := [],
        failed := false } := by
    have := @SchedStep.dispatch dagA false "a"
      (schedInit dagA) (by decide) (by decide) (by decide)
    simpa [schedInit, dagA] using this
  have h2 : SchedStep dagA false
      { pending := [], running := ["a"], results := [], skipped := [],
        failed := false }
      { pending := [], running := [], results := [("a", true)], skipped := [],
        failed := false } := by
    have := @SchedStep.complete dagA false "a" true
      { pending := [], running := ["a"], results := [], skipped := [],
        failed := false } (by decide)
    simpa using this
  exact C3_directory_success_conjunction dagA false _
    ((Relation.ReflTransGen.refl.tail h1).tail h2) ⟨rfl, rfl⟩

end TA
